import Mathlib

/-!
# Verification of the localization automation tool

A shallow embedding of `tools/localization.py` and proofs about its core
operations: gap detection (`TranslationDetector.find_missing_translations`),
format-specifier protection and restoration around translation
(`TranslationGenerator.translate`, `_extract_format_specifiers`,
`_validate_format_specifiers`), additive insertion
(`TranslationInserter.insert_translation`) and new-key tracking
(`NewKeyTracker.find_new_keys`, `create_to_localize_structure`).

JSON dictionaries are modelled as association lists (`List (key × value)`),
which preserve Python's insertion order; lookup is `List.lookup`.  Optional
JSON fields read with `dict.get(k, default)` are modelled as `Option` fields
with `Option.getD`.
-/

namespace Localization

/-- A `stringUnit` record: `{"state": ..., "value": ...}`. -/

structure StringUnit where
  state : String
  value : String
deriving DecidableEq, Repr

/-- One per-language localization entry: `{"stringUnit": {...}}`. -/
structure LocEntry where
  stringUnit : StringUnit
deriving DecidableEq, Repr

/-- The record stored under one key of the catalog's `strings` mapping.
The `localizations` field is optional in the JSON (`.get("localizations", {})`
in the reading code), hence the `Option`. -/
structure KeyRecord where
  localizations : Option (List (String × LocEntry)) := none
deriving DecidableEq, Repr

/-- A `Localizable.xcstrings` catalog after structure validation: top-level
fields `sourceLanguage`, `strings`, `version`. -/
structure Catalog where
  sourceLanguage : String
  strings : List (String × KeyRecord)
  version : String
deriving DecidableEq, Repr

/-- Per-key metadata from `keys.json`: an optional `skip_localization` flag
(`key_info.get("skip_localization", False)`). -/
structure KeyMeta where
  skip_localization : Bool := false
deriving DecidableEq, Repr

/-- The tracked-keys document `keys.json`: a `strings` mapping from key to
metadata. -/
structure KeysData where
  strings : List (String × KeyMeta)
deriving DecidableEq, Repr

/-- The skip test performed inside `find_missing_translations`:
`if self.keys_data:` (falsy `None` modelled as `none`) followed by
`self.keys_data.get("strings", {}).get(key, {}).get("skip_localization", False)`. -/
def skipKey (keys_data : Option KeysData) (key : String) : Bool :=
  match keys_data with
  | none => false
  | some kd => ((kd.strings.lookup key).getD {}).skip_localization

/-- The language codes of `supported_languages` missing from a key's
`localizations` dictionary, in the order of the language list
(the `for lang in self.supported_languages` loop). -/
def missingLangs (localizations : List (String × LocEntry))
    (supported_languages : List String) : List String :=
  supported_languages.filter fun lang => (localizations.lookup lang).isNone

/-- `TranslationDetector.find_missing_translations`: for every key of the
catalog's `strings` mapping, in order, skip empty keys and keys flagged
`skip_localization`; otherwise report the missing languages, keeping only
keys with a nonempty missing list. -/
def find_missing_translations (localizable_data : Catalog)
    (supported_languages : List String) (keys_data : Option KeysData) :
    List (String × List String) :=
  localizable_data.strings.filterMap fun kv =>
    if kv.1 = "" then none
    else if skipKey keys_data kv.1 then none
    else if (missingLangs (kv.2.localizations.getD []) supported_languages).isEmpty then none
    else some (kv.1, missingLangs (kv.2.localizations.getD []) supported_languages)

/-- Replace the value paired with the first occurrence of key `k`, leaving
everything else unchanged (Python dict update of an existing key keeps its
position). -/
def updateFirst (l : List (String × KeyRecord)) (k : String) (v : KeyRecord) :
    List (String × KeyRecord) :=
  match l with
  | [] => []
  | kv :: rest => if kv.1 = k then (kv.1, v) :: rest else kv :: updateFirst rest k v

/-- The `TranslationInserter` state: the catalog it mutates in place and the
running `translations_inserted` counter. -/
structure InserterState where
  localizable_data : Catalog
  translations_inserted : Nat := 0
deriving DecidableEq, Repr

/-- `TranslationInserter.insert_translation`: no-op if the key is absent;
create the `localizations` dictionary if missing; preserve an existing entry
for the language; otherwise add a fresh
`{"stringUnit": {"state": "translated", "value": ...}}` entry and bump the
insertion counter. -/
def insert_translation (st : InserterState) (key language translated_text : String) :
    InserterState :=
  match st.localizable_data.strings.lookup key with
  | none => st
  | some key_data =>
    let locs := key_data.localizations.getD []
    match locs.lookup language with
    | some _ => st
    | none =>
      let entry : LocEntry := ⟨⟨"translated", translated_text⟩⟩
      let key_data' : KeyRecord := { localizations := some (locs ++ [(language, entry)]) }
      { localizable_data :=
          { st.localizable_data with
            strings := updateFirst st.localizable_data.strings key key_data' },
        translations_inserted := st.translations_inserted + 1 }

/-- `TranslationInserter.get_insertion_count`. -/
def get_insertion_count (st : InserterState) : Nat :=
  st.translations_inserted

/-- `NewKeyTracker.find_new_keys`: a tracked key is new if it is absent from
the catalog, or present with an empty (or missing) `localizations` mapping
(`len(localizations) == 0`). -/
def find_new_keys (localizable_data : Catalog) (keys_data : KeysData) : List String :=
  keys_data.strings.filterMap fun kv =>
    match localizable_data.strings.lookup kv.1 with
    | none => some kv.1
    | some key_data =>
      if (key_data.localizations.getD []).length = 0 then some kv.1 else none

/-- `NewKeyTracker.create_to_localize_structure`: a catalog-shaped document
with `sourceLanguage` `"en"`, `version` `"1.0"` and an empty record for each
new key. -/
def create_to_localize_structure (new_keys : List String) : Catalog :=
  { sourceLanguage := "en",
    strings := new_keys.map fun key => (key, ({} : KeyRecord)),
    version := "1.0" }

/-- The `TranslationDetector` fields set in `__init__`. -/
structure DetectorState where
  localizable_data : Catalog
  supported_languages : List String
  keys_data : Option KeysData
deriving DecidableEq, Repr

/-- `find_missing_translations` as a state transformer: the method reads
`self` and returns the report; it assigns no field of `self`. -/
def find_missing_translations_run (st : DetectorState) :
    DetectorState × List (String × List String) :=
  (st, find_missing_translations st.localizable_data st.supported_languages st.keys_data)

/-- The `NewKeyTracker` fields set in `__init__` (with `self.new_keys = []`). -/
structure TrackerState where
  localizable_data : Catalog
  keys_data : KeysData
  new_keys : List String := []
deriving DecidableEq, Repr

/-- `NewKeyTracker.find_new_keys` as a state transformer: it recomputes and
stores `self.new_keys` and touches nothing else. -/
def find_new_keys_run (st : TrackerState) : TrackerState × List String :=
  let new_keys := find_new_keys st.localizable_data st.keys_data
  ({ st with new_keys := new_keys }, new_keys)

/-- `NewKeyTracker.create_to_localize_structure` reads `self.new_keys`. -/
def create_to_localize_structure_run (st : TrackerState) : Catalog :=
  create_to_localize_structure st.new_keys

/-! ## Format specifiers: `_extract_format_specifiers` and the protection scheme

Texts are modelled as `List Char`.  The Python regex
`%(?:\d+\$)?[@diouxXeEfFgGaAcspn]|%l{1,2}[diouxX]` is embedded as a
hand-rolled matcher with Python `re` semantics: at a given position the
first alternative is tried before the second, the optional group
`(?:\d+\$)?` is tried with the group present first (and only the maximal
digit run can be followed by `$`, because any shorter run is still followed
by a digit, so no further backtracking arises), and `l{1,2}` prefers two
`l`s.  `\d` is modelled as the ASCII digits, which is what the catalog's
format specifiers use. -/

/-- The conversion-character class `[@diouxXeEfFgGaAcspn]`. -/
def specClass (c : Char) : Bool :=
  c = '@' || c = 'd' || c = 'i' || c = 'o' || c = 'u' || c = 'x' || c = 'X' ||
  c = 'e' || c = 'E' || c = 'f' || c = 'F' || c = 'g' || c = 'G' ||
  c = 'a' || c = 'A' || c = 'c' || c = 's' || c = 'p' || c = 'n'

/-- The integer-conversion class `[diouxX]` of the `%l`/`%ll` alternative. -/
def intClass (c : Char) : Bool :=
  c = 'd' || c = 'i' || c = 'o' || c = 'u' || c = 'x' || c = 'X'

/-- The regex match at the head of `cs`: the matched specifier, if the
pattern matches here. -/
def matchSpecHere (cs : List Char) : Option (List Char) :=
  match cs with
  | [] => none
  | c :: rest =>
    if c = '%' then
      if 0 < (rest.takeWhile Char.isDigit).length then
        -- first alternative with the positional group present: `%\d+\$` then
        -- a class character
        match rest.drop (rest.takeWhile Char.isDigit).length with
        | [] => none
        | [_] => none
        | d :: c2 :: _ =>
          if d = '$' ∧ specClass c2 = true then
            some ('%' :: rest.takeWhile Char.isDigit ++ ['$', c2])
          else none
      else
        match rest with
        | [] => none
        | c1 :: rest2 =>
          -- first alternative with the group absent
          if specClass c1 then some ['%', c1]
          else if c1 = 'l' then
            -- second alternative `%l{1,2}[diouxX]`, two `l`s preferred
            match rest2 with
            | [] => none
            | c2 :: rest3 =>
              if c2 = 'l' then
                match rest3 with
                | [] => none
                | c3 :: _ => if intClass c3 then some ['%', 'l', 'l', c3] else none
              else if intClass c2 then some ['%', 'l', c2] else none
          else none
    else none

/-- The scanning loop of `re.findall`, structurally recursive on a fuel that
bounds the text length (each step consumes at least one character, so
`l.length` fuel always suffices; see `findSpecsAux_fuel`). -/
def findSpecsAux : Nat → List Char → List (List Char)
  | _, [] => []
  | 0, _ :: _ => []
  | fuel + 1, c :: cs =>
    match matchSpecHere (c :: cs) with
    | some s => s :: findSpecsAux fuel (cs.drop (s.length - 1))
    | none => findSpecsAux fuel cs

/-- `re.findall` for this pattern: scan left to right, at each position take
the match if there is one and continue right after it, else advance one
character.  (A match is never empty: since its length is at least two,
`cs.drop (s.length - 1)` is the text right after the match.) -/
def findSpecs (l : List Char) : List (List Char) :=
  findSpecsAux l.length l

/-- Python `str.replace(old, new, 1)`: replace the first occurrence of `old`
(for empty `old`, Python inserts `new` at the front, which this definition
also does). -/
def replaceFirst (s old new : List Char) : List Char :=
  match s with
  | [] => if old.isEmpty then new else []
  | c :: rest =>
    if old.isPrefixOf (c :: rest) then new ++ (c :: rest).drop old.length
    else c :: replaceFirst rest old new

/-- The scanning loop of Python `str.replace(old, new)` (all occurrences),
structurally recursive on a fuel bounding the text length: each step
consumes at least one character when `old` is nonempty. -/
def replaceAllAux : Nat → List Char → List Char → List Char → List Char
  | _, [], old, new => if old.isEmpty then new else []
  | 0, s, _, _ => s
  | fuel + 1, c :: rest, old, new =>
    if ¬old.isEmpty ∧ old.isPrefixOf (c :: rest) then
      new ++ replaceAllAux fuel ((c :: rest).drop old.length) old new
    else c :: replaceAllAux fuel rest old new

/-- Python `str.replace(old, new)` for nonempty `old`: replace every
non-overlapping occurrence left to right, continuing right after each
replacement.  (All call sites in `translate` pass a nonempty `old`, a
sentinel token; Python's behaviour on an empty `old` differs and is not
modelled.) -/
def replaceAll (s old new : List Char) : List Char :=
  replaceAllAux s.length s old new

/-- The decimal digit characters used by Python's `f"{i}"` rendering. -/
def digitChar : Nat → Char
  | 0 => '0' | 1 => '1' | 2 => '2' | 3 => '3' | 4 => '4'
  | 5 => '5' | 6 => '6' | 7 => '7' | 8 => '8' | _ => '9'

/-- Decimal rendering with a fuel bounding the number (division by ten
strictly decreases, so `n` fuel always suffices). -/
def natDigitsAux : Nat → Nat → List Char
  | 0, n => [digitChar n]
  | fuel + 1, n =>
    if n < 10 then [digitChar n]
    else natDigitsAux fuel (n / 10) ++ [digitChar (n % 10)]

/-- Python's `f"{i}"` decimal rendering of a natural number. -/
def natDigits (n : Nat) : List Char :=
  natDigitsAux n n

/-- The sentinel token `f"__PLACEHOLDER_{i}__"`. -/
def placeholder (i : Nat) : List Char :=
  '_' :: '_' :: 'P' :: 'L' :: 'A' :: 'C' :: 'E' :: 'H' :: 'O' :: 'L' :: 'D' :: 'E' :: 'R' ::
    '_' :: (natDigits i ++ ['_', '_'])

/-- The protection loop of `translate`: for the `i`-th extracted specifier
(in order of appearance) substitute the `i`-th sentinel for its first
occurrence in the working text. -/
def protectLoop (specs : List (List Char)) (i : Nat) (text : List Char) : List Char :=
  match specs with
  | [] => text
  | s :: rest => protectLoop rest (i + 1) (replaceFirst text s (placeholder i))

/-- Protection of a source text: extract the specifiers, then run the
substitution loop (`translate` lines building `protected_text`). -/
def protect (source_text : List Char) : List Char :=
  protectLoop (findSpecs source_text) 0 source_text

/-- The restoration loop of `translate`: for each recorded sentinel, in
insertion order, replace all its occurrences by its specifier. -/
def restoreLoop (specs : List (List Char)) (i : Nat) (text : List Char) : List Char :=
  match specs with
  | [] => text
  | s :: rest => restoreLoop rest (i + 1) (replaceAll text (placeholder i) s)

/-- Restoration applied to the output of the translation step, given the
specifiers of the source text. -/
def restore (source_specs : List (List Char)) (translated_text : List Char) : List Char :=
  restoreLoop source_specs 0 translated_text

/-- Python string comparison (`<=`): lexicographic in code points. -/
def lexLe : List Char → List Char → Bool
  | [], _ => true
  | _ :: _, [] => false
  | a :: as, b :: bs => if a < b then true else if a = b then lexLe as bs else false

/-- Insert into a `lexLe`-sorted list, keeping it sorted. -/
def insertSorted (x : List Char) : List (List Char) → List (List Char)
  | [] => [x]
  | y :: ys => if lexLe x y then x :: y :: ys else y :: insertSorted x ys

/-- Python `sorted` on a list of strings.  (Sorting by insertion: under the
total order `lexLe` every correct sort produces the same list, so this models
Python's sort faithfully.) -/
def pySorted : List (List Char) → List (List Char)
  | [] => []
  | x :: xs => insertSorted x (pySorted xs)

/-! Order lemmas for `lexLe`: Python string comparison is a linear order, so
every correct sort produces the same result, and comparing sorted lists
compares multisets. -/

/-- `lexLe` as a relation, to connect with the sorting library. -/
def lexLeRel (a b : List Char) : Prop := lexLe a b = true

instance : DecidableRel lexLeRel := fun a b =>
  inferInstanceAs (Decidable (lexLe a b = true))

instance : IsTotal (List Char) lexLeRel := by
  refine ⟨fun a => ?_⟩
  induction a with
  | nil => intro b; left; rfl
  | cons x as ih =>
    intro b
    cases b with
    | nil => right; rfl
    | cons y bs =>
      by_cases hxy : x < y
      · left; simp [lexLeRel, lexLe, hxy]
      · by_cases heq : x = y
        · subst heq
          rcases ih bs with h | h
          · left; simp only [lexLeRel, lexLe] at h ⊢; simp [h]
          · right; simp only [lexLeRel, lexLe] at h ⊢; simp [h]
        · have hyx : y < x := by
            rcases lt_trichotomy x y with h | h | h
            · exact absurd h hxy
            · exact absurd h heq
            · exact h
          right
          simp [lexLeRel, lexLe, hyx]

instance : IsTrans (List Char) lexLeRel := by
  refine ⟨fun a => ?_⟩
  induction a with
  | nil => intro b c _ _; rfl
  | cons x as ih =>
    intro b c h1 h2
    cases b with
    | nil => simp [lexLeRel, lexLe] at h1
    | cons y bs =>
      cases c with
      | nil => simp [lexLeRel, lexLe] at h2
      | cons z cs =>
        simp only [lexLeRel, lexLe] at h1 h2 ⊢
        by_cases hxy : x < y
        · by_cases hyz : y < z
          · rw [if_pos (lt_trans hxy hyz)]
          · rw [if_pos hxy] at h1
            by_cases hyz2 : y = z
            · subst hyz2; rw [if_pos hxy]
            · rw [if_neg hyz, if_neg hyz2] at h2; cases h2
        · by_cases hxy2 : x = y
          · subst hxy2
            rw [if_neg hxy, if_pos rfl] at h1
            by_cases hyz : x < z
            · rw [if_pos hyz]
            · by_cases hyz2 : x = z
              · rw [if_neg hyz, if_pos hyz2]
                rw [if_neg hyz, if_pos hyz2] at h2
                exact ih bs cs h1 h2
              · rw [if_neg hyz, if_neg hyz2] at h2; cases h2
          · rw [if_neg hxy, if_neg hxy2] at h1; cases h1

instance : IsAntisymm (List Char) lexLeRel := by
  refine ⟨fun a => ?_⟩
  induction a with
  | nil =>
    intro b _ h2
    cases b with
    | nil => rfl
    | cons y bs => simp [lexLeRel, lexLe] at h2
  | cons x as ih =>
    intro b h1 h2
    cases b with
    | nil => simp [lexLeRel, lexLe] at h1
    | cons y bs =>
      simp only [lexLeRel, lexLe] at h1 h2
      by_cases hxy : x < y
      · rw [if_neg (lt_asymm hxy), if_neg (ne_of_gt hxy)] at h2; cases h2
      · by_cases heq : x = y
        · subst heq
          rw [if_neg hxy, if_pos rfl] at h1 h2
          rw [ih bs h1 h2]
        · rw [if_neg hxy, if_neg heq] at h1; cases h1

/-- `TranslationGenerator._validate_format_specifiers`: re-extract the
specifiers from both texts and compare the sorted lists. -/
def validate_format_specifiers (source_text translated_text : List Char) : Bool :=
  pySorted (findSpecs source_text) == pySorted (findSpecs translated_text)

/-- `TranslationGenerator.translate` around the external call, with the
external service abstracted as an oracle `shim` from the protected text to
the stripped stdout (`none` for any of the failure exits: framework or shim
unavailable, nonzero return code, timeout, exception).  On success the
sentinels are restored and the result is validated; a validation failure
rejects the translation (`return None`). -/
def translateWith (shim : List Char → Option (List Char)) (source_text : List Char) :
    Option (List Char) :=
  match shim (protect source_text) with
  | none => none
  | some stdout =>
    if validate_format_specifiers source_text (restore (findSpecs source_text) stdout) then
      some (restore (findSpecs source_text) stdout)
    else none

/-! ## Shape of matched specifiers

`SpecShape s` enumerates the exact strings the pattern can match; it is the
bridge between `matchSpecHere` at one position and reasoning about
occurrences elsewhere in the text. -/

/-- The four shapes a matched format specifier can take. -/
def SpecShape (s : List Char) : Prop :=
  (∃ c, specClass c = true ∧ s = ['%', c]) ∨
  (∃ ds c, ds ≠ [] ∧ (∀ d ∈ ds, d.isDigit = true) ∧ specClass c = true ∧
    s = '%' :: ds ++ ['$', c]) ∨
  (∃ c, intClass c = true ∧ c ≠ 'l' ∧ s = ['%', 'l', c]) ∨
  (∃ c, intClass c = true ∧ s = ['%', 'l', 'l', c])

/-- Characters that can occur in a specifier string. -/
def specChar (c : Char) : Bool :=
  c = '%' || c.isDigit || c = '$' || c = 'l' || specClass c

/-! ## The gap/specifier decomposition computed by `findSpecs` -/

/-- No regex match starts strictly inside `g` when the text continues with
`tail`: the scan of `findSpecs` stepped through `g` one character at a time. -/
def NoMatchIn (g tail : List Char) : Prop :=
  ∀ g1 g2, g = g1 ++ g2 → g2 ≠ [] → matchSpecHere (g2 ++ tail) = none

/-- The decomposition `l = g₀ ++ s₀ ++ g₁ ++ s₁ ++ … ++ g_N` that the scan
produces: each `sᵢ` is a matched specifier and no match starts inside a
gap. -/
inductive GapsSpecs : List Char → List (List Char × List Char) → List Char → Prop
  | nil (g : List Char) (hg : NoMatchIn g []) : GapsSpecs g [] g
  | cons (g s t : List Char) (ps : List (List Char × List Char)) (gN : List Char)
      (hg : NoMatchIn g (s ++ t)) (hs : SpecShape s)
      (ht : GapsSpecs t ps gN) :
      GapsSpecs (g ++ (s ++ t)) ((g, s) :: ps) gN

/-- Specifier-freedom of a gap, independent of the continuation: no
specifier-shaped string lies entirely inside it off the start. -/
def SpecFree (g : List Char) : Prop :=
  ∀ g1 g2, g = g1 ++ g2 → g2 ≠ [] → ∀ σ, SpecShape σ → ¬ σ <+: g2

/-! ## Facts about the sentinel tokens -/

/-- The word inside every sentinel token. -/
def PLword : List Char :=
  ['P', 'L', 'A', 'C', 'E', 'H', 'O', 'L', 'D', 'E', 'R']

/-- Decimal valuation, inverse to `natDigits`. -/
def digitVal (l : List Char) : Nat :=
  l.foldl (fun acc c => 10 * acc + (c.toNat - 48)) 0

/-! ## The protection loop rewrites each specifier in place -/

/-- The shape of the already-protected prefix during the protection loop:
alternating blocks of a specifier-free gap followed by a sentinel. -/
inductive ProtPrefix : List Char → Prop
  | nil : ProtPrefix []
  | blk (A g : List Char) (i : Nat) (hA : ProtPrefix A) (hg : SpecFree g) :
      ProtPrefix (A ++ (g ++ placeholder i))

/-- The fully protected text of a decomposition: each specifier replaced by
its sentinel. -/
def protConcat : List (List Char × List Char) → Nat → List Char → List Char
  | [], _, gN => gN
  | (g, _) :: ps, i, gN => g ++ (placeholder i ++ protConcat ps (i + 1) gN)

/-! ## Texts free of the sentinel word -/

/-- A text that does not contain the substring `PLACEHOLDER`. -/
def Clean (s : List Char) : Prop := ¬ PLword <:+: s

/-- Continuations against which sentinel occurrences are analysed: either
the canonical sentinel that follows (starting `"__"`), or a restored
specifier (starting `'%'`). -/
def ZStart (Z : List Char) : Prop :=
  (∃ Z', Z = '_' :: '_' :: Z') ∨ (∃ Z', Z = '%' :: Z')

/-- The restored prefix during the restoration loop: alternating clean gaps
and already-restored specifiers, ending with a gap. -/
inductive RestPre : List Char → Prop
  | gap (g : List Char) (hg : Clean g) : RestPre g
  | more (X s g : List Char) (hX : RestPre X) (hs : SpecShape s) (hg : Clean g) :
      RestPre (X ++ (s ++ g))

/-! ## The restoration loop undoes the protection -/

/-- The protected region from sentinel `i` on, for the shifted decomposition
`[(s_i, g_{i+1}), (s_{i+1}, g_{i+2}), …]` (each specifier paired with the
gap that follows it; the final pair carries the final gap). -/
def protUnder : List (List Char × List Char) → Nat → List Char
  | [], _ => []
  | (_, g) :: qs, i => placeholder i ++ (g ++ protUnder qs (i + 1))

/-- The same region fully restored. -/
def restUnder : List (List Char × List Char) → List Char
  | [] => []
  | (s, g) :: qs => s ++ (g ++ restUnder qs)

/-- Shifted view of a decomposition: the leading gap, and each specifier
paired with the gap after it. -/
def shiftPairs : List (List Char × List Char) → List Char →
    List Char × List (List Char × List Char)
  | [], gN => (gN, [])
  | (g, s) :: ps, gN =>
    (g, (s, (shiftPairs ps gN).1) :: (shiftPairs ps gN).2)

/-! ## Association-list lemmas -/

theorem lookup_cons_self {β : Type} {a : String} {b : β} {l : List (String × β)} :
    ((a, b) :: l).lookup a = some b := by
  simp [List.lookup]

theorem lookup_cons_of_ne {β : Type} {a k : String} {b : β} {l : List (String × β)}
    (h : a ≠ k) : ((k, b) :: l).lookup a = l.lookup a := by
  have hk : (a == k) = false := beq_eq_false_iff_ne.mpr h
  simp [List.lookup, hk]

theorem lookup_updateFirst_self {l : List (String × KeyRecord)} {k : String}
    {r v : KeyRecord} (h : l.lookup k = some r) :
    (updateFirst l k v).lookup k = some v := by
  induction l with
  | nil => simp [List.lookup] at h
  | cons kv rest ih =>
    obtain ⟨a, b⟩ := kv
    by_cases hk : a = k
    · subst hk
      simp [updateFirst, lookup_cons_self]
    · have hk' : k ≠ a := fun he => hk he.symm
      rw [lookup_cons_of_ne hk'] at h
      rw [updateFirst, if_neg hk, lookup_cons_of_ne hk']
      exact ih h

theorem lookup_updateFirst_ne {l : List (String × KeyRecord)} {k k' : String}
    {v : KeyRecord} (h : k' ≠ k) :
    (updateFirst l k v).lookup k' = l.lookup k' := by
  induction l with
  | nil => simp [updateFirst]
  | cons kv rest ih =>
    obtain ⟨a, b⟩ := kv
    by_cases hk : a = k
    · subst hk
      rw [updateFirst, if_pos rfl, lookup_cons_of_ne h, lookup_cons_of_ne h]
    · by_cases hk2 : k' = a
      · subst hk2
        rw [updateFirst, if_neg hk, lookup_cons_self, lookup_cons_self]
      · rw [updateFirst, if_neg hk, lookup_cons_of_ne hk2, lookup_cons_of_ne hk2]
        exact ih

theorem lookup_append_single_self {l : List (String × LocEntry)} {a : String}
    {e : LocEntry} (h : l.lookup a = none) :
    (l ++ [(a, e)]).lookup a = some e := by
  induction l with
  | nil => simp [lookup_cons_self]
  | cons kv rest ih =>
    obtain ⟨k, b⟩ := kv
    by_cases hk : a = k
    · subst hk
      rw [lookup_cons_self] at h
      cases h
    · rw [lookup_cons_of_ne hk] at h
      rw [List.cons_append, lookup_cons_of_ne hk]
      exact ih h

theorem lookup_append_single_ne {l : List (String × LocEntry)} {a b : String}
    {e : LocEntry} (h : b ≠ a) :
    (l ++ [(a, e)]).lookup b = l.lookup b := by
  induction l with
  | nil => rw [List.nil_append, lookup_cons_of_ne h]
  | cons kv rest ih =>
    obtain ⟨k, c⟩ := kv
    by_cases hk : b = k
    · subst hk
      rw [List.cons_append, lookup_cons_self, lookup_cons_self]
    · rw [List.cons_append, lookup_cons_of_ne hk, lookup_cons_of_ne hk]
      exact ih

/-! ## Characterization of the gap report (shared by the claims below) -/

theorem mem_find_missing_iff {cat : Catalog} {langs : List String}
    {kd : Option KeysData} {key : String} {m : List String} :
    (key, m) ∈ find_missing_translations cat langs kd ↔
      ∃ r : KeyRecord, (key, r) ∈ cat.strings ∧ key ≠ "" ∧
        skipKey kd key = false ∧
        m = missingLangs (r.localizations.getD []) langs ∧ m ≠ [] := by
  unfold find_missing_translations
  rw [List.mem_filterMap]
  constructor
  · rintro ⟨⟨k, r⟩, hmem, hf⟩
    simp only at hf
    by_cases h1 : k = ""
    · rw [if_pos h1] at hf; cases hf
    rw [if_neg h1] at hf
    by_cases h2 : skipKey kd k = true
    · rw [if_pos h2] at hf; cases hf
    rw [if_neg h2] at hf
    by_cases h3 : (missingLangs (r.localizations.getD []) langs).isEmpty = true
    · rw [if_pos h3] at hf; cases hf
    rw [if_neg h3] at hf
    rw [Option.some_inj, Prod.mk.injEq] at hf
    obtain ⟨hk, hm⟩ := hf
    subst hk
    refine ⟨r, hmem, h1, by simpa using h2, hm.symm, ?_⟩
    rw [← hm]
    simpa [List.isEmpty_iff] using h3
  · rintro ⟨r, hmem, h1, h2, rfl, h4⟩
    refine ⟨(key, r), hmem, ?_⟩
    have h3 : (missingLangs (r.localizations.getD []) langs).isEmpty = false := by
      simpa [List.isEmpty_iff] using h4
    simp [h1, h2, h3]

/-! ## Claim theorems for the catalog operations -/

/-- **C1.** Gap detection is functionally correct: `(key, m)` appears in the
report exactly when `key` is a non-empty, non-skipped catalog key whose
missing-language list — the supported languages absent from its
`localizations`, in the order of the language list — is `m` and is nonempty.
In particular a key whose localizations cover every supported language never
appears. -/
theorem find_missing_translations_spec (cat : Catalog) (langs : List String)
    (kd : Option KeysData) (key : String) (m : List String) :
    (key, m) ∈ find_missing_translations cat langs kd ↔
      ∃ r : KeyRecord, (key, r) ∈ cat.strings ∧ key ≠ "" ∧
        skipKey kd key = false ∧
        m = missingLangs (r.localizations.getD []) langs ∧ m ≠ [] :=
  mem_find_missing_iff

/-- **C5.** Skip rules: an empty key, or a key whose tracked-key metadata has
`skip_localization = true`, never appears in the gap report. -/
theorem find_missing_skip_rules (cat : Catalog) (langs : List String)
    (kd : Option KeysData) (key : String)
    (h : key = "" ∨ ∃ kdata meta, kd = some kdata ∧
          kdata.strings.lookup key = some meta ∧ meta.skip_localization = true) :
    ∀ m, (key, m) ∉ find_missing_translations cat langs kd := by
  intro m hmem
  obtain ⟨r, _, hne, hskip, _, _⟩ := mem_find_missing_iff.mp hmem
  rcases h with h | ⟨kdata, meta, rfl, hlk, hflag⟩
  · exact hne h
  · rw [skipKey, hlk] at hskip
    simp only [Option.getD_some] at hskip
    rw [hflag] at hskip
    cases hskip

/-- Witness for C5 at a concrete catalog: the skipped key `"Debug"` is not
reported even though it has no translations at all. -/
theorem find_missing_skip_rules_witness :
    ("Debug", ["en", "fr"]) ∉
      find_missing_translations
        ⟨"en", [("Debug", ⟨none⟩)], "1.0"⟩ ["en", "fr"]
        (some ⟨[("Debug", ⟨true⟩)]⟩) :=
  find_missing_skip_rules
    ⟨"en", [("Debug", ⟨none⟩)], "1.0"⟩ ["en", "fr"] (some ⟨[("Debug", ⟨true⟩)]⟩)
    "Debug" (Or.inr ⟨⟨[("Debug", ⟨true⟩)]⟩, ⟨true⟩, rfl, by decide, rfl⟩)
    ["en", "fr"]

/-- **C4.** Insertion semantics: absent key is a no-op; an existing entry for
the key/language is preserved with the whole state unchanged; otherwise
exactly the new `{stringUnit: {state: "translated", value: text}}` entry is
appended for that language and the insertion counter increments by one. -/
theorem insert_translation_spec (st : InserterState) (key language text : String) :
    (st.localizable_data.strings.lookup key = none →
      insert_translation st key language text = st) ∧
    (∀ r e, st.localizable_data.strings.lookup key = some r →
      (r.localizations.getD []).lookup language = some e →
      insert_translation st key language text = st) ∧
    (∀ r, st.localizable_data.strings.lookup key = some r →
      (r.localizations.getD []).lookup language = none →
      get_insertion_count (insert_translation st key language text) =
          get_insertion_count st + 1 ∧
        (insert_translation st key language text).localizable_data.strings.lookup key =
          some ⟨some ((r.localizations.getD []) ++
            [(language, ⟨⟨"translated", text⟩⟩)])⟩) := by
  refine ⟨fun h => ?_, fun r e hr he => ?_, fun r hr he => ?_⟩
  · simp [insert_translation, h]
  · simp [insert_translation, hr, he]
  · constructor
    · simp [insert_translation, hr, he, get_insertion_count]
    · simp only [insert_translation, hr, he]
      exact lookup_updateFirst_self hr

/-- **C7.** Insertion is idempotent: inserting the same (key, language, text)
twice leaves the state exactly as inserting it once. -/
theorem insert_translation_idempotent (st : InserterState) (key language text : String) :
    insert_translation (insert_translation st key language text) key language text =
      insert_translation st key language text := by
  rcases hr : st.localizable_data.strings.lookup key with _ | r
  · simp [insert_translation, hr]
  · rcases he : (r.localizations.getD []).lookup language with _ | e
    · have h1 :
          (insert_translation st key language text).localizable_data.strings.lookup key =
            some ⟨some ((r.localizations.getD []) ++
              [(language, ⟨⟨"translated", text⟩⟩)])⟩ := by
        simp only [insert_translation, hr, he]
        exact lookup_updateFirst_self hr
      have h2 := lookup_append_single_self (a := language)
        (e := (⟨⟨"translated", text⟩⟩ : LocEntry)) he
      conv_lhs => rw [insert_translation]
      rw [h1]
      simp only [Option.getD_some]
      rw [h2]
    · simp only [insert_translation, hr, he]

/-- **C9.** Frame property of insertion: `sourceLanguage` and `version` are
unchanged, every other key's record is unchanged, and within the given key's
record every other language's entry is unchanged. -/
theorem insert_translation_frame (st : InserterState) (key language text : String) :
    (insert_translation st key language text).localizable_data.sourceLanguage =
        st.localizable_data.sourceLanguage ∧
    (insert_translation st key language text).localizable_data.version =
        st.localizable_data.version ∧
    (∀ k', k' ≠ key →
      (insert_translation st key language text).localizable_data.strings.lookup k' =
        st.localizable_data.strings.lookup k') ∧
    (∀ l', l' ≠ language →
      ((insert_translation st key language text).localizable_data.strings.lookup key).map
          (fun r => (r.localizations.getD []).lookup l') =
        (st.localizable_data.strings.lookup key).map
          (fun r => (r.localizations.getD []).lookup l')) := by
  rcases hr : st.localizable_data.strings.lookup key with _ | r
  · simp [insert_translation, hr]
  · rcases he : (r.localizations.getD []).lookup language with _ | e
    · refine ⟨by simp [insert_translation, hr, he], by simp [insert_translation, hr, he],
        fun k' hk' => ?_, fun l' hl' => ?_⟩
      · simp only [insert_translation, hr, he]
        exact lookup_updateFirst_ne hk'
      · have h1 :
            (insert_translation st key language text).localizable_data.strings.lookup key =
              some ⟨some ((r.localizations.getD []) ++
                [(language, ⟨⟨"translated", text⟩⟩)])⟩ := by
          simp only [insert_translation, hr, he]
          exact lookup_updateFirst_self hr
        rw [h1]
        simp [lookup_append_single_ne hl']
    · simp [insert_translation, hr, he]

/-- **C6.** New-key classification and output shape: a key is returned by
`find_new_keys` exactly when it is tracked and either absent from the catalog
or present with an empty (or missing) `localizations` mapping; and the
`to_localize` structure's `strings` holds exactly the new keys, each with an
empty record. -/
theorem find_new_keys_spec (cat : Catalog) (kd : KeysData) (key : String) (r : KeyRecord) :
    (key ∈ find_new_keys cat kd ↔
      (∃ meta, (key, meta) ∈ kd.strings) ∧
        (cat.strings.lookup key = none ∨
          ∃ kr : KeyRecord, cat.strings.lookup key = some kr ∧
            kr.localizations.getD [] = [])) ∧
    ((key, r) ∈ (create_to_localize_structure (find_new_keys cat kd)).strings ↔
      key ∈ find_new_keys cat kd ∧ r = {}) := by
  constructor
  · unfold find_new_keys
    rw [List.mem_filterMap]
    constructor
    · rintro ⟨⟨k, meta⟩, hmem, hf⟩
      simp only at hf
      cases hlk : cat.strings.lookup k with
      | none =>
        rw [hlk] at hf
        dsimp only at hf
        rw [Option.some_inj] at hf
        subst hf
        exact ⟨⟨meta, hmem⟩, Or.inl hlk⟩
      | some kr =>
        rw [hlk] at hf
        dsimp only at hf
        by_cases hlen : (kr.localizations.getD []).length = 0
        · rw [if_pos hlen, Option.some_inj] at hf
          subst hf
          exact ⟨⟨meta, hmem⟩, Or.inr ⟨kr, hlk, List.length_eq_zero.mp hlen⟩⟩
        · rw [if_neg hlen] at hf
          cases hf
    · rintro ⟨⟨meta, hmem⟩, hcond⟩
      refine ⟨(key, meta), hmem, ?_⟩
      rcases hcond with hlk | ⟨kr, hlk, hnil⟩
      · simp [hlk]
      · simp [hlk, hnil]
  · unfold create_to_localize_structure
    simp only [List.mem_map]
    constructor
    · rintro ⟨k, hk, hEq⟩
      obtain ⟨h1, h2⟩ := Prod.mk.injEq .. ▸ hEq
      exact ⟨h1 ▸ hk, h2.symm⟩
    · rintro ⟨hk, rfl⟩
      exact ⟨key, hk, rfl⟩

/-- **C8.** Worked example: catalog with key `"Save"` localized only for
`"en"`, languages `["en","fr","de"]`, tracked keys `{"Save": {}}` — the gap
report is `{"Save": ["fr","de"]}` and the new-key report is empty. -/
theorem worked_example_spec :
    find_missing_translations
        ⟨"en", [("Save", ⟨some [("en", ⟨⟨"translated", "Save"⟩⟩)]⟩)], "1.0"⟩
        ["en", "fr", "de"] (some ⟨[("Save", {})]⟩) = [("Save", ["fr", "de"])] ∧
      find_new_keys
        ⟨"en", [("Save", ⟨some [("en", ⟨⟨"translated", "Save"⟩⟩)]⟩)], "1.0"⟩
        ⟨[("Save", {})]⟩ = [] := by
  constructor <;> decide

/-- **C10.** The analysis passes are read-only: the detector's state (catalog,
language list, tracked keys) is returned unchanged, and the tracker changes
only its own `new_keys` cache — its catalog and tracked-key data are
unchanged. -/
theorem analysis_passes_readonly (d : DetectorState) (t : TrackerState) :
    (find_missing_translations_run d).1 = d ∧
      (find_new_keys_run t).1.localizable_data = t.localizable_data ∧
      (find_new_keys_run t).1.keys_data = t.keys_data :=
  ⟨rfl, rfl, rfl⟩

theorem findSpecsAux_fuel :
    ∀ (f1 : Nat) {f2 : Nat} {l : List Char}, l.length ≤ f1 → l.length ≤ f2 →
      findSpecsAux f1 l = findSpecsAux f2 l := by
  intro f1
  induction f1 with
  | zero =>
    intro f2 l h1 _
    have : l = [] := List.eq_nil_of_length_eq_zero (Nat.le_zero.mp h1)
    subst this
    cases f2 <;> rfl
  | succ f1 ih =>
    intro f2 l h1 h2
    cases l with
    | nil => cases f2 <;> rfl
    | cons c cs =>
      cases f2 with
      | zero => simp at h2
      | succ f2 =>
        simp only [List.length_cons, Nat.add_le_add_iff_right] at h1 h2
        show findSpecsAux (f1 + 1) (c :: cs) = findSpecsAux (f2 + 1) (c :: cs)
        simp only [findSpecsAux]
        cases hm : matchSpecHere (c :: cs) with
        | none => exact ih h1 h2
        | some s =>
          have hd : (cs.drop (s.length - 1)).length ≤ cs.length := by
            simp only [List.length_drop]; omega
          exact congrArg (s :: ·) (ih (Nat.le_trans hd h1) (Nat.le_trans hd h2))

/-- Unfolding equation of `findSpecs` at a nonempty text. -/
theorem findSpecs_cons (c : Char) (cs : List Char) :
    findSpecs (c :: cs) =
      match matchSpecHere (c :: cs) with
      | some s => s :: findSpecs (cs.drop (s.length - 1))
      | none => findSpecs cs := by
  show findSpecsAux (cs.length + 1) (c :: cs) = _
  simp only [findSpecsAux]
  cases hm : matchSpecHere (c :: cs) with
  | none => rfl
  | some s =>
    have hd : (cs.drop (s.length - 1)).length ≤ cs.length := by
      simp only [List.length_drop]; omega
    exact congrArg (s :: ·) (findSpecsAux_fuel cs.length hd (Nat.le_refl _))

theorem replaceAllAux_fuel :
    ∀ (f1 : Nat) {f2 : Nat} {s old new : List Char}, s.length ≤ f1 → s.length ≤ f2 →
      replaceAllAux f1 s old new = replaceAllAux f2 s old new := by
  intro f1
  induction f1 with
  | zero =>
    intro f2 s old new h1 _
    have : s = [] := List.eq_nil_of_length_eq_zero (Nat.le_zero.mp h1)
    subst this
    cases f2 <;> rfl
  | succ f1 ih =>
    intro f2 s old new h1 h2
    cases s with
    | nil => cases f2 <;> rfl
    | cons c rest =>
      cases f2 with
      | zero => simp at h2
      | succ f2 =>
        simp only [List.length_cons, Nat.add_le_add_iff_right] at h1 h2
        show replaceAllAux (f1 + 1) (c :: rest) old new =
          replaceAllAux (f2 + 1) (c :: rest) old new
        simp only [replaceAllAux]
        by_cases h : ¬old.isEmpty ∧ old.isPrefixOf (c :: rest)
        · rw [if_pos h, if_pos h]
          have hlen : 1 ≤ old.length := by
            cases old with
            | nil => simp at h
            | cons o os => simp
          have hd : ((c :: rest).drop old.length).length ≤ rest.length := by
            simp only [List.length_drop, List.length_cons]; omega
          exact congrArg (new ++ ·) (ih (Nat.le_trans hd h1) (Nat.le_trans hd h2))
        · rw [if_neg h, if_neg h]
          exact congrArg (c :: ·) (ih h1 h2)

/-- Unfolding equation of `replaceAll` at a nonempty text. -/
theorem replaceAll_cons (c : Char) (rest old new : List Char) :
    replaceAll (c :: rest) old new =
      if ¬old.isEmpty ∧ old.isPrefixOf (c :: rest) then
        new ++ replaceAll ((c :: rest).drop old.length) old new
      else c :: replaceAll rest old new := by
  show replaceAllAux (rest.length + 1) (c :: rest) old new = _
  simp only [replaceAllAux]
  by_cases h : ¬old.isEmpty ∧ old.isPrefixOf (c :: rest)
  · rw [if_pos h, if_pos h]
    have hlen : 1 ≤ old.length := by
      cases old with
      | nil => simp at h
      | cons o os => simp
    have hd : ((c :: rest).drop old.length).length ≤ rest.length := by
      simp only [List.length_drop, List.length_cons]; omega
    exact congrArg (new ++ ·) (replaceAllAux_fuel rest.length hd (Nat.le_refl _))
  · rw [if_neg h, if_neg h]
    rfl

theorem natDigitsAux_fuel :
    ∀ (f1 : Nat) {f2 n : Nat}, n ≤ f1 → n ≤ f2 →
      natDigitsAux f1 n = natDigitsAux f2 n := by
  intro f1
  induction f1 with
  | zero =>
    intro f2 n h1 _
    have hn : n = 0 := Nat.le_zero.mp h1
    subst hn
    cases f2 with
    | zero => rfl
    | succ f2 =>
      show [digitChar 0] = natDigitsAux (f2 + 1) 0
      simp only [natDigitsAux]
      rw [if_pos (by omega)]
  | succ f1 ih =>
    intro f2 n h1 h2
    by_cases hn : n < 10
    · cases f2 with
      | zero =>
        have h0 : n = 0 := Nat.le_zero.mp h2
        subst h0
        show natDigitsAux (f1 + 1) 0 = [digitChar 0]
        simp only [natDigitsAux]
        rw [if_pos (by omega)]
      | succ f2 =>
        simp only [natDigitsAux]
        rw [if_pos hn, if_pos hn]
    · cases f2 with
      | zero => omega
      | succ f2 =>
        simp only [natDigitsAux]
        rw [if_neg hn, if_neg hn]
        have hlt : n / 10 < n := Nat.div_lt_self (by omega) (by omega)
        rw [ih (show n / 10 ≤ f1 by omega) (show n / 10 ≤ f2 by omega)]

/-- Unfolding equation of `natDigits`. -/
theorem natDigits_eq (n : Nat) :
    natDigits n = if n < 10 then [digitChar n]
      else natDigits (n / 10) ++ [digitChar (n % 10)] := by
  show natDigitsAux n n = _
  by_cases hn : n < 10
  · rw [if_pos hn]
    cases n with
    | zero => rfl
    | succ m =>
      simp only [natDigitsAux]
      rw [if_pos hn]
  · rw [if_neg hn]
    cases n with
    | zero => omega
    | succ m =>
      simp only [natDigitsAux]
      rw [if_neg hn]
      have hlt : (m + 1) / 10 < m + 1 := Nat.div_lt_self (by omega) (by omega)
      rw [natDigitsAux_fuel m (show (m + 1) / 10 ≤ m by omega) (Nat.le_refl _)]
      rfl

theorem insertSorted_eq_orderedInsert (x : List Char) (l : List (List Char)) :
    insertSorted x l = List.orderedInsert lexLeRel x l := by
  induction l with
  | nil => rfl
  | cons y ys ih =>
    show insertSorted x (y :: ys) = _
    rw [insertSorted, List.orderedInsert]
    by_cases h : lexLe x y = true
    · rw [if_pos h, if_pos (show lexLeRel x y from h)]
    · rw [if_neg h, if_neg (show ¬lexLeRel x y from h), ih]

theorem pySorted_eq_insertionSort (l : List (List Char)) :
    pySorted l = List.insertionSort lexLeRel l := by
  induction l with
  | nil => rfl
  | cons x xs ih =>
    rw [pySorted, List.insertionSort, ih, insertSorted_eq_orderedInsert]

theorem pySorted_perm (l : List (List Char)) : (pySorted l).Perm l := by
  rw [pySorted_eq_insertionSort]
  exact List.perm_insertionSort lexLeRel l

theorem pySorted_sorted (l : List (List Char)) : (pySorted l).Sorted lexLeRel := by
  rw [pySorted_eq_insertionSort]
  exact List.sorted_insertionSort lexLeRel l

/-- Comparing the sorted lists compares the underlying multisets. -/
theorem pySorted_eq_iff_perm (s t : List (List Char)) :
    pySorted s = pySorted t ↔ s.Perm t := by
  constructor
  · intro h
    exact (pySorted_perm s).symm.trans (h ▸ pySorted_perm t)
  · intro h
    exact List.eq_of_perm_of_sorted
      ((pySorted_perm s).trans (h.trans (pySorted_perm t).symm))
      (pySorted_sorted s) (pySorted_sorted t)

/-- **C3.** Specifier validation decides translation acceptance:
`_validate_format_specifiers` returns `true` exactly when the sorted list of
specifiers of the translated text equals that of the source; comparing the
sorted lists is comparing the multisets of specifiers; whenever validation
fails on the restored output, `translate` returns the failure result `none`;
and any text `translate` does return has passed validation. -/
theorem validate_format_specifiers_spec (source_text : List Char) :
    (∀ t, validate_format_specifiers source_text t = true ↔
        pySorted (findSpecs source_text) = pySorted (findSpecs t)) ∧
    (∀ t, pySorted (findSpecs source_text) = pySorted (findSpecs t) ↔
        (findSpecs source_text).Perm (findSpecs t)) ∧
    (∀ (shim : List Char → Option (List Char)) (stdout : List Char),
      shim (protect source_text) = some stdout →
      validate_format_specifiers source_text
          (restore (findSpecs source_text) stdout) = false →
      translateWith shim source_text = none) ∧
    (∀ (shim : List Char → Option (List Char)) (result : List Char),
      translateWith shim source_text = some result →
      validate_format_specifiers source_text result = true) := by
  refine ⟨fun t => ?_, fun t => pySorted_eq_iff_perm _ _, fun shim stdout hs hv => ?_,
    fun shim result hr => ?_⟩
  · exact beq_iff_eq ..
  · rw [translateWith, hs]
    simp only [hv, Bool.false_eq_true, if_false]
  · rw [translateWith] at hr
    cases hs : shim (protect source_text) with
    | none => rw [hs] at hr; cases hr
    | some stdout =>
      rw [hs] at hr
      dsimp only at hr
      by_cases hv : validate_format_specifiers source_text
          (restore (findSpecs source_text) stdout) = true
      · rw [if_pos hv, Option.some_inj] at hr
        rw [← hr]
        exact hv
      · rw [if_neg hv] at hr; cases hr

theorem specClass_cases {c : Char} (h : specClass c = true) :
    c = '@' ∨ c = 'd' ∨ c = 'i' ∨ c = 'o' ∨ c = 'u' ∨ c = 'x' ∨ c = 'X' ∨
    c = 'e' ∨ c = 'E' ∨ c = 'f' ∨ c = 'F' ∨ c = 'g' ∨ c = 'G' ∨
    c = 'a' ∨ c = 'A' ∨ c = 'c' ∨ c = 's' ∨ c = 'p' ∨ c = 'n' := by
  have h2 := h
  simp only [specClass, Bool.or_eq_true, decide_eq_true_eq] at h2
  tauto

theorem intClass_cases {c : Char} (h : intClass c = true) :
    c = 'd' ∨ c = 'i' ∨ c = 'o' ∨ c = 'u' ∨ c = 'x' ∨ c = 'X' := by
  have h2 := h
  simp only [intClass, Bool.or_eq_true, decide_eq_true_eq] at h2
  tauto

theorem specClass_not_digit {c : Char} (h : specClass c = true) :
    c.isDigit = false := by
  rcases specClass_cases h with h|h|h|h|h|h|h|h|h|h|h|h|h|h|h|h|h|h|h <;>
    subst h <;> decide

theorem intClass_specClass {c : Char} (h : intClass c = true) :
    specClass c = true := by
  rcases intClass_cases h with h|h|h|h|h|h <;> subst h <;> decide

theorem isDigit_ne_underscore {c : Char} (h : c.isDigit = true) : c ≠ '_' := by
  intro he; subst he; simp at h

theorem isDigit_ne_percent {c : Char} (h : c.isDigit = true) : c ≠ '%' := by
  intro he; subst he; simp at h

theorem SpecShape_chars {s : List Char} (hs : SpecShape s) :
    ∀ c ∈ s, specChar c = true := by
  rcases hs with ⟨c, hc, rfl⟩ | ⟨ds, c, _, hds, hc, rfl⟩ | ⟨c, hc, _, rfl⟩ | ⟨c, hc, rfl⟩ <;>
    intro x hx
  · rcases hx with _ | ⟨_, hx⟩
    · simp [specChar]
    · rcases hx with _ | ⟨_, hx⟩
      · simp [specChar, hc]
      · cases hx
  · rcases hx with _ | ⟨_, hx⟩
    · simp [specChar]
    · rcases List.mem_append.mp hx with hx | hx
      · simp [specChar, hds x hx]
      · rcases hx with _ | ⟨_, hx⟩
        · simp [specChar]
        · rcases hx with _ | ⟨_, hx⟩
          · simp [specChar, hc]
          · cases hx
  · rcases hx with _ | ⟨_, hx⟩
    · simp [specChar]
    · rcases hx with _ | ⟨_, hx⟩
      · simp [specChar]
      · rcases hx with _ | ⟨_, hx⟩
        · simp [specChar, intClass_specClass hc]
        · cases hx
  · rcases hx with _ | ⟨_, hx⟩
    · simp [specChar]
    · rcases hx with _ | ⟨_, hx⟩
      · simp [specChar]
      · rcases hx with _ | ⟨_, hx⟩
        · simp [specChar]
        · rcases hx with _ | ⟨_, hx⟩
          · simp [specChar, intClass_specClass hc]
          · cases hx

theorem specChar_ne_underscore {c : Char} (h : specChar c = true) : c ≠ '_' := by
  intro he; subst he
  simp only [specChar, Bool.or_eq_true, decide_eq_true_eq] at h
  rcases h with ((((h | h) | h) | h) | h)
  · cases h
  · simp at h
  · cases h
  · cases h
  · rcases specClass_cases h with h|h|h|h|h|h|h|h|h|h|h|h|h|h|h|h|h|h|h <;> cases h

theorem specChar_ne_P {c : Char} (h : specChar c = true) : c ≠ 'P' := by
  intro he; subst he
  simp only [specChar, Bool.or_eq_true, decide_eq_true_eq] at h
  rcases h with ((((h | h) | h) | h) | h)
  · cases h
  · simp at h
  · cases h
  · cases h
  · rcases specClass_cases h with h|h|h|h|h|h|h|h|h|h|h|h|h|h|h|h|h|h|h <;> cases h

theorem SpecShape_ne_nil {s : List Char} (hs : SpecShape s) : s ≠ [] := by
  rcases hs with ⟨c, _, rfl⟩ | ⟨ds, c, _, _, _, rfl⟩ | ⟨c, _, _, rfl⟩ | ⟨c, _, rfl⟩ <;> simp

theorem SpecShape_head {s : List Char} (hs : SpecShape s) :
    ∃ s', s = '%' :: s' := by
  rcases hs with ⟨c, _, rfl⟩ | ⟨ds, c, _, _, _, rfl⟩ | ⟨c, _, _, rfl⟩ | ⟨c, _, rfl⟩ <;>
    exact ⟨_, rfl⟩

/-- A small fact used repeatedly: the digit run read by the matcher. -/
theorem takeWhile_digits_append {ds : List Char} (x : Char) (r : List Char)
    (hds : ∀ d ∈ ds, d.isDigit = true) (hx : x.isDigit = false) :
    (ds ++ x :: r).takeWhile Char.isDigit = ds := by
  induction ds with
  | nil => simp [List.takeWhile_cons, hx]
  | cons d ds ih =>
    rw [List.cons_append, List.takeWhile_cons, hds d (by simp)]
    rw [ih fun e he => hds e (by simp [he])]
    simp

/-- Inversion of the matcher: a match has one of the four shapes and is a
prefix of the text. -/
theorem matchSpecHere_inv {cs s : List Char} (h : matchSpecHere cs = some s) :
    SpecShape s ∧ s <+: cs := by
  cases cs with
  | nil => cases h
  | cons c rest =>
    simp only [matchSpecHere] at h
    by_cases hc : c = '%'
    swap
    · rw [if_neg hc] at h; cases h
    subst hc
    rw [if_pos rfl] at h
    by_cases hd : 0 < (rest.takeWhile Char.isDigit).length
    · rw [if_pos hd] at h
      cases hdrop : rest.drop (rest.takeWhile Char.isDigit).length with
      | nil => rw [hdrop] at h; cases h
      | cons d tail =>
        cases tail with
        | nil => rw [hdrop] at h; cases h
        | cons c2 tail2 =>
          rw [hdrop] at h
          dsimp only at h
          by_cases hcond : d = '$' ∧ specClass c2 = true
          · rw [if_pos hcond] at h
            rw [Option.some_inj] at h
            subst h
            obtain ⟨hd1, hd2⟩ := hcond
            subst hd1
            have hds : ∀ d ∈ rest.takeWhile Char.isDigit, d.isDigit = true :=
              fun d hdm => List.mem_takeWhile_imp hdm
            have hne' : rest.takeWhile Char.isDigit ≠ [] := by
              intro he; rw [he] at hd; cases hd
            have hsplit := List.takeWhile_append_dropWhile Char.isDigit rest
            have hdw : rest.dropWhile Char.isDigit = '$' :: c2 :: tail2 := by
              have hdl : (rest.takeWhile Char.isDigit ++
                  rest.dropWhile Char.isDigit).drop
                    (rest.takeWhile Char.isDigit).length =
                  rest.dropWhile Char.isDigit := List.drop_left _ _
              rw [hsplit] at hdl
              rw [← hdl, hdrop]
            have hrest : rest = rest.takeWhile Char.isDigit ++ '$' :: c2 :: tail2 := by
              conv_lhs => rw [← hsplit]
              rw [hdw]
            constructor
            · exact Or.inr (Or.inl ⟨rest.takeWhile Char.isDigit, c2, hne', hds, hd2, rfl⟩)
            · refine ⟨tail2, ?_⟩
              conv_rhs => rw [hrest]
              simp
          · rw [if_neg hcond] at h; cases h
    · rw [if_neg hd] at h
      cases rest with
      | nil => cases h
      | cons c1 rest2 =>
        dsimp only at h
        by_cases h1 : specClass c1 = true
        · rw [if_pos h1, Option.some_inj] at h
          subst h
          exact ⟨Or.inl ⟨c1, h1, rfl⟩, ⟨rest2, rfl⟩⟩
        · rw [if_neg h1] at h
          by_cases h2 : c1 = 'l'
          swap
          · rw [if_neg h2] at h; cases h
          subst h2
          rw [if_pos rfl] at h
          cases rest2 with
          | nil => cases h
          | cons c2 rest3 =>
            dsimp only at h
            by_cases h3 : c2 = 'l'
            · subst h3
              rw [if_pos rfl] at h
              cases rest3 with
              | nil => cases h
              | cons c3 rest4 =>
                dsimp only at h
                by_cases h4 : intClass c3 = true
                · rw [if_pos h4, Option.some_inj] at h
                  subst h
                  exact ⟨Or.inr (Or.inr (Or.inr ⟨c3, h4, rfl⟩)), ⟨rest4, rfl⟩⟩
                · rw [if_neg h4] at h; cases h
            · rw [if_neg h3] at h
              by_cases h4 : intClass c2 = true
              · rw [if_pos h4, Option.some_inj] at h
                subst h
                exact ⟨Or.inr (Or.inr (Or.inl ⟨c2, h4, h3, rfl⟩)), ⟨rest3, rfl⟩⟩
              · rw [if_neg h4] at h; cases h

/-- Completeness of the matcher: a specifier-shaped string is matched, in
full, wherever it starts. -/
theorem matchSpecHere_of_shape {s : List Char} (hs : SpecShape s) (t : List Char) :
    matchSpecHere (s ++ t) = some s := by
  rcases hs with ⟨c, hc, rfl⟩ | ⟨ds, c, hne, hds, hc, rfl⟩ | ⟨c, hc, hcl, rfl⟩ | ⟨c, hc, rfl⟩
  · show matchSpecHere ('%' :: c :: t) = _
    have h0 : (c :: t).takeWhile Char.isDigit = [] := by
      rw [List.takeWhile_cons, specClass_not_digit hc]
      simp
    simp [matchSpecHere, h0, hc]
  · have hsplit : '%' :: ds ++ ['$', c] ++ t = '%' :: (ds ++ '$' :: c :: t) := by simp
    rw [hsplit]
    have h0 : (ds ++ '$' :: c :: t).takeWhile Char.isDigit = ds :=
      takeWhile_digits_append '$' (c :: t) hds (by decide)
    have hlen : 0 < ds.length := by
      cases ds with
      | nil => cases hne rfl
      | cons a l => simp
    have hdl : (ds ++ '$' :: c :: t).drop ds.length = '$' :: c :: t :=
      List.drop_left ds ('$' :: c :: t)
    simp [matchSpecHere, h0, hlen, hdl, hc]
  · show matchSpecHere ('%' :: 'l' :: c :: t) = _
    have h0 : ('l' :: c :: t).takeWhile Char.isDigit = [] := by
      rw [List.takeWhile_cons, show 'l'.isDigit = false from by decide]
      simp
    simp [matchSpecHere, h0, hc, hcl, show specClass 'l' = false from by decide]
  · show matchSpecHere ('%' :: 'l' :: 'l' :: c :: t) = _
    have h0 : ('l' :: 'l' :: c :: t).takeWhile Char.isDigit = [] := by
      rw [List.takeWhile_cons, show 'l'.isDigit = false from by decide]
      simp
    simp [matchSpecHere, h0, hc, show specClass 'l' = false from by decide]

/-- A specifier-shaped prefix of any text is matched there (and the match is
that full specifier). -/
theorem matchSpecHere_of_shape_prefix {s u : List Char} (hs : SpecShape s)
    (h : s <+: u) : matchSpecHere u = some s := by
  obtain ⟨t, rfl⟩ := h
  exact matchSpecHere_of_shape hs t

/-! ## Splitting prefixes, suffixes and occurrences -/

/-- A prefix that fits inside the left part of an append stays there. -/
theorem prefix_append_of_le {s u v : List Char} (h : s <+: u ++ v)
    (hl : s.length ≤ u.length) : s <+: u := by
  have hs : s = (u ++ v).take s.length := List.prefix_iff_eq_take.mp h
  rw [List.take_append_of_le_length hl] at hs
  rw [hs]
  exact List.take_prefix _ _

/-- A prefix that overruns the left part of an append splits at the
boundary. -/
theorem prefix_append_split {s u v : List Char} (h : s <+: u ++ v)
    (hl : u.length < s.length) : u <+: s ∧ s.drop u.length <+: v := by
  obtain ⟨w, hw⟩ := h
  have hu : u = s.take u.length := by
    have := congrArg (List.take u.length) hw
    rw [List.take_append_of_le_length (Nat.le_of_lt hl)] at this
    rw [this, List.take_left]
  have hsplit : s = u ++ s.drop u.length := by
    conv_lhs => rw [← List.take_append_drop u.length s]
    rw [← hu]
  constructor
  · exact ⟨s.drop u.length, hsplit.symm⟩
  · refine ⟨w, ?_⟩
    have : (u ++ s.drop u.length) ++ w = u ++ v := by rw [← hsplit, hw]
    rw [List.append_assoc] at this
    exact List.append_cancel_left this

/-- Every suffix of an append is a suffix of the right part, or the right
part extended by a nonempty suffix of the left part. -/
theorem suffix_append_cases {s u v : List Char} (h : s <:+ u ++ v) :
    s <:+ v ∨ ∃ u2, u2 ≠ [] ∧ u2 <:+ u ∧ s = u2 ++ v := by
  induction u with
  | nil => exact Or.inl (by simpa using h)
  | cons a u' ih =>
    rw [List.cons_append, List.suffix_cons_iff] at h
    rcases h with rfl | h
    · exact Or.inr ⟨a :: u', by simp, List.suffix_refl _, rfl⟩
    · rcases ih h with h | ⟨u2, hne, hsuf, rfl⟩
      · exact Or.inl h
      · exact Or.inr ⟨u2, hne, hsuf.trans (List.suffix_cons a u'), rfl⟩

/-- The head of a nonempty prefix is the head of the list. -/
theorem prefix_head {s : List Char} {c : Char} {u : List Char}
    (h : s <+: c :: u) (hne : s ≠ []) : ∃ s', s = c :: s' ∧ s' <+: u := by
  cases s with
  | nil => cases hne rfl
  | cons a s' =>
    rw [List.cons_prefix_cons] at h
    exact ⟨s', by rw [h.1], h.2⟩

/-! ## The replacement primitives over decomposed texts -/

/-- `replaceFirst` walks past a region in which no occurrence of `old`
starts. -/
theorem replaceFirst_append {A B old new : List Char}
    (h : ∀ A1 A2, A = A1 ++ A2 → A2 ≠ [] → ¬ old <+: (A2 ++ B)) :
    replaceFirst (A ++ B) old new = A ++ replaceFirst B old new := by
  induction A with
  | nil => rfl
  | cons a A' ih =>
    have hpre : ¬ old.isPrefixOf (a :: (A' ++ B)) = true := by
      intro hp
      exact h [] (a :: A') rfl (by simp) (List.isPrefixOf_iff_prefix.mp hp)
    rw [List.cons_append, replaceFirst, if_neg hpre]
    rw [ih fun A1 A2 hA hne => h (a :: A1) A2 (by rw [hA, List.cons_append]) hne]
    simp

/-- `replaceFirst` fires at an occurrence sitting at the head. -/
theorem replaceFirst_head (s B new : List Char) :
    replaceFirst (s ++ B) s new = new ++ B := by
  cases s with
  | nil =>
    cases B with
    | nil => simp [replaceFirst]
    | cons b B' =>
      rw [List.nil_append, replaceFirst,
        if_pos (List.isPrefixOf_iff_prefix.mpr (List.nil_prefix))]
      simp
  | cons c s' =>
    rw [List.cons_append, replaceFirst,
      if_pos (List.isPrefixOf_iff_prefix.mpr ⟨B, by simp⟩)]
    have : ((c :: s') ++ B).drop (c :: s').length = B := List.drop_left _ _
    rw [List.cons_append] at this
    rw [this]

/-- `replaceAll` walks past a region in which no occurrence of `old`
starts. -/
theorem replaceAll_append {A B old new : List Char}
    (h : ∀ A1 A2, A = A1 ++ A2 → A2 ≠ [] → ¬ old <+: (A2 ++ B)) :
    replaceAll (A ++ B) old new = A ++ replaceAll B old new := by
  induction A with
  | nil => rfl
  | cons a A' ih =>
    have hpre : ¬ (¬old.isEmpty = true ∧ old.isPrefixOf (a :: (A' ++ B)) = true) := by
      rintro ⟨_, hp⟩
      exact h [] (a :: A') rfl (by simp) (List.isPrefixOf_iff_prefix.mp hp)
    rw [List.cons_append, replaceAll_cons, if_neg hpre]
    rw [ih fun A1 A2 hA hne => h (a :: A1) A2 (by rw [hA, List.cons_append]) hne]
    simp

/-- `replaceAll` fires at an occurrence sitting at the head and continues
after the replacement. -/
theorem replaceAll_head {s : List Char} (B new : List Char) (hne : s ≠ []) :
    replaceAll (s ++ B) s new = new ++ replaceAll B s new := by
  cases s with
  | nil => cases hne rfl
  | cons c s' =>
    rw [List.cons_append, replaceAll_cons,
      if_pos ⟨by simp, List.isPrefixOf_iff_prefix.mpr ⟨B, by simp⟩⟩]
    have : ((c :: s') ++ B).drop (c :: s').length = B := List.drop_left _ _
    rw [List.cons_append] at this
    rw [this]

/-- `replaceAll` is the identity on a text with no occurrence at all. -/
theorem replaceAll_no_occ {B old new : List Char} (hold : old ≠ [])
    (h : ∀ B1 B2, B = B1 ++ B2 → B2 ≠ [] → ¬ old <+: B2) :
    replaceAll B old new = B := by
  induction B with
  | nil =>
    show replaceAllAux 0 [] old new = []
    rw [replaceAllAux, if_neg (by simpa [List.isEmpty_iff] using hold)]
  | cons b B' ih =>
    have hpre : ¬ (¬old.isEmpty = true ∧ old.isPrefixOf (b :: B') = true) := by
      rintro ⟨_, hp⟩
      exact h [] (b :: B') rfl (by simp) (List.isPrefixOf_iff_prefix.mp hp)
    rw [replaceAll_cons, if_neg hpre]
    rw [ih fun B1 B2 hB hne => h (b :: B1) B2 (by rw [hB, List.cons_append]) hne]

theorem NoMatchIn_nil (tail : List Char) : NoMatchIn [] tail := by
  intro g1 g2 hg hne
  obtain ⟨h1, h2⟩ := List.append_eq_nil.mp hg.symm
  exact absurd h2 hne

theorem NoMatchIn_cons {c : Char} {g tail : List Char}
    (hc : matchSpecHere ((c :: g) ++ tail) = none) (hg : NoMatchIn g tail) :
    NoMatchIn (c :: g) tail := by
  intro g1 g2 hsplit hne
  cases g1 with
  | nil =>
    rw [List.nil_append] at hsplit
    rw [← hsplit]
    exact hsplit ▸ hc
  | cons a g1' =>
    rw [List.cons_append] at hsplit
    injection hsplit with h1 h2
    exact hg g1' g2 h2 hne

/-- A decomposition extends across a character at which no match starts. -/
theorem GapsSpecs_prepend {c : Char} {l : List Char}
    {ps : List (List Char × List Char)} {gN : List Char}
    (h : GapsSpecs l ps gN) (hm : matchSpecHere (c :: l) = none) :
    ∃ ps2 gN2, GapsSpecs (c :: l) ps2 gN2 ∧ ps2.map Prod.snd = ps.map Prod.snd := by
  revert hm
  induction h with
  | nil g hg =>
    intro hm
    refine ⟨[], c :: g, GapsSpecs.nil (c :: g) ?_, rfl⟩
    refine NoMatchIn_cons ?_ hg
    rw [List.append_nil]
    exact hm
  | cons g s t ps' gN' hg hs ht ih =>
    intro hm
    refine ⟨(c :: g, s) :: ps', gN', ?_, by simp⟩
    refine GapsSpecs.cons (c :: g) s t ps' gN' (NoMatchIn_cons ?_ hg) hs ht
    rw [List.cons_append]
    exact hm

/-- `findSpecs` realizes such a decomposition on every text. -/
theorem findSpecs_decomp :
    ∀ (n : Nat) (l : List Char), l.length ≤ n →
      ∃ ps gN, GapsSpecs l ps gN ∧ findSpecs l = ps.map Prod.snd := by
  intro n
  induction n with
  | zero =>
    intro l hl
    have : l = [] := List.eq_nil_of_length_eq_zero (Nat.le_zero.mp hl)
    subst this
    exact ⟨[], [], GapsSpecs.nil [] (NoMatchIn_nil []), rfl⟩
  | succ n ih =>
    intro l hl
    cases l with
    | nil => exact ⟨[], [], GapsSpecs.nil [] (NoMatchIn_nil []), rfl⟩
    | cons c cs =>
      rw [List.length_cons, Nat.add_le_add_iff_right] at hl
      cases hm : matchSpecHere (c :: cs) with
      | some s =>
        obtain ⟨hs, hpre⟩ := matchSpecHere_inv hm
        obtain ⟨t, hst⟩ := hpre
        have hslen : 1 ≤ s.length := by
          obtain ⟨s', rfl⟩ := SpecShape_head hs
          simp
        have htlen : t.length ≤ n := by
          have := congrArg List.length hst
          simp only [List.length_append, List.length_cons] at this
          omega
        obtain ⟨ps, gN, hgs, hfs⟩ := ih t htlen
        have hdrop : cs.drop (s.length - 1) = t := by
          have h1 : (s ++ t).drop s.length = t := List.drop_left s t
          rw [hst] at h1
          have h2 : (c :: cs).drop s.length = cs.drop (s.length - 1) := by
            cases hsl : s.length with
            | zero => omega
            | succ m => simp [List.drop_succ_cons]
          rw [h2] at h1
          exact h1
        refine ⟨(([], s)) :: ps, gN, ?_, ?_⟩
        · have := GapsSpecs.cons [] s t ps gN (NoMatchIn_nil (s ++ t)) hs hgs
          rw [List.nil_append, hst] at this
          exact this
        · rw [findSpecs_cons, hm]
          dsimp only
          rw [hdrop, hfs]
          rfl
      | none =>
        obtain ⟨ps, gN, hgs, hfs⟩ := ih cs hl
        have hfind : findSpecs (c :: cs) = findSpecs cs := by
          rw [findSpecs_cons, hm]
        obtain ⟨ps2, gN2, hgs2, hsnd⟩ := GapsSpecs_prepend hgs hm
        exact ⟨ps2, gN2, hgs2, by rw [hfind, hfs, hsnd]⟩

/-- No specifier-shaped string starts strictly inside a gap (with the gap's
original continuation). -/
theorem noSpecPrefix_of_noMatchIn {g tail : List Char} (hg : NoMatchIn g tail)
    {σ : List Char} (hσ : SpecShape σ) :
    ∀ g1 g2, g = g1 ++ g2 → g2 ≠ [] → ¬ σ <+: (g2 ++ tail) := by
  intro g1 g2 hsplit hne hp
  have := matchSpecHere_of_shape_prefix hσ hp
  rw [hg g1 g2 hsplit hne] at this
  cases this

theorem specFree_of_noMatchIn {g tail : List Char} (hg : NoMatchIn g tail) :
    SpecFree g := by
  intro g1 g2 hsplit hne σ hσ hp
  exact noSpecPrefix_of_noMatchIn hg hσ g1 g2 hsplit hne
    (hp.trans (List.prefix_append g2 tail))

theorem placeholder_eq (i : Nat) :
    placeholder i =
      '_' :: '_' :: (PLword ++ ('_' :: (natDigits i ++ ['_', '_']))) := rfl

theorem digitChar_isDigit (n : Nat) : (digitChar n).isDigit = true := by
  rcases n with _|_|_|_|_|_|_|_|_|n <;>
    first
    | decide
    | (show ('9' : Char).isDigit = true; decide)

theorem natDigits_digits {n : Nat} : ∀ c ∈ natDigits n, c.isDigit = true := by
  intro c hc
  induction n using Nat.strong_induction_on with
  | _ n ih =>
    rw [natDigits_eq] at hc
    by_cases hn : n < 10
    · rw [if_pos hn] at hc
      rcases hc with _ | ⟨_, hc⟩
      · exact digitChar_isDigit n
      · cases hc
    · rw [if_neg hn] at hc
      rcases List.mem_append.mp hc with hc | hc
      · exact ih (n / 10) (Nat.div_lt_self (by omega) (by omega)) hc
      · rcases hc with _ | ⟨_, hc⟩
        · exact digitChar_isDigit (n % 10)
        · cases hc

theorem natDigits_ne_nil (n : Nat) : natDigits n ≠ [] := by
  rw [natDigits_eq]
  by_cases hn : n < 10
  · rw [if_pos hn]; simp
  · rw [if_neg hn]; simp

theorem digitChar_toNat {d : Nat} (hd : d < 10) :
    (digitChar d).toNat = 48 + d := by
  rcases d with _|_|_|_|_|_|_|_|_|d <;>
    first
    | decide
    | (have hz : d = 0 := by omega
       subst hz
       decide)

theorem digitVal_natDigits (n : Nat) : digitVal (natDigits n) = n := by
  induction n using Nat.strong_induction_on with
  | _ n ih =>
    rw [natDigits_eq]
    by_cases hn : n < 10
    · rw [if_pos hn]
      show 10 * 0 + ((digitChar n).toNat - 48) = n
      rw [digitChar_toNat hn]
      omega
    · rw [if_neg hn]
      show (natDigits (n / 10) ++ [digitChar (n % 10)]).foldl
        (fun acc c => 10 * acc + (c.toNat - 48)) 0 = n
      rw [List.foldl_append]
      have h1 : digitVal (natDigits (n / 10)) = n / 10 :=
        ih (n / 10) (Nat.div_lt_self (by omega) (by omega))
      show 10 * (natDigits (n / 10)).foldl (fun acc c => 10 * acc + (c.toNat - 48)) 0 +
          ((digitChar (n % 10)).toNat - 48) = n
      rw [show (natDigits (n / 10)).foldl (fun acc c => 10 * acc + (c.toNat - 48)) 0 =
        digitVal (natDigits (n / 10)) from rfl, h1, digitChar_toNat (by omega)]
      omega

theorem natDigits_inj {a b : Nat} (h : natDigits a = natDigits b) : a = b := by
  rw [← digitVal_natDigits a, ← digitVal_natDigits b, h]

theorem percent_not_mem_placeholder (i : Nat) : '%' ∉ placeholder i := by
  rw [placeholder_eq]
  intro hmem
  rcases hmem with _ | ⟨_, hmem⟩
  rcases hmem with _ | ⟨_, hmem⟩
  rcases List.mem_append.mp hmem with hmem | hmem
  · revert hmem; decide
  · rcases hmem with _ | ⟨_, hmem⟩
    rcases List.mem_append.mp hmem with hmem | hmem
    · exact isDigit_ne_percent (natDigits_digits '%' hmem) rfl
    · revert hmem; decide

theorem PLword_no_underscore : ∀ c ∈ PLword, c ≠ '_' := by decide

theorem placeholder_ne_nil (i : Nat) : placeholder i ≠ [] := by
  rw [placeholder_eq]; simp

/-- No specifier-shaped string starts strictly inside the protected prefix,
whatever follows it: an occurrence inside a gap would have been a match, one
touching a sentinel dies on `'_'` (not a specifier character) or on `'%'`
(not a sentinel character). -/
theorem ProtPrefix_no_spec_occ {A : List Char} (hA : ProtPrefix A)
    {σ : List Char} (hσ : SpecShape σ) :
    ∀ (Z A1 A2 : List Char), A = A1 ++ A2 → A2 ≠ [] → ¬ σ <+: (A2 ++ Z) := by
  induction hA with
  | nil =>
    intro Z A1 A2 hsplit hne
    obtain ⟨h1, h2⟩ := List.append_eq_nil.mp hsplit.symm
    exact absurd h2 hne
  | blk A' g i hA' hg ih =>
    intro Z A1 A2 hsplit hne hocc
    have hsuf : A2 <:+ A' ++ (g ++ placeholder i) := ⟨A1, hsplit.symm⟩
    rcases suffix_append_cases hsuf with hsuf | ⟨u2, hu2ne, hu2, rfl⟩
    · -- the suffix starts inside `g ++ placeholder i`
      rcases suffix_append_cases hsuf with hsuf | ⟨g2, hg2ne, hg2, rfl⟩
      · -- inside the sentinel: a specifier starts with '%'
        obtain ⟨p1, hp1⟩ := hsuf
        obtain ⟨σ', rfl⟩ := SpecShape_head hσ
        cases A2 with
        | nil => exact hne rfl
        | cons a A2' =>
          rw [List.cons_append, List.cons_prefix_cons] at hocc
          have : '%' ∈ placeholder i := by
            rw [← hp1, hocc.1]
            exact List.mem_append_right p1 (by simp)
          exact percent_not_mem_placeholder i this
      · -- starting inside the gap
        obtain ⟨g1, hg1⟩ := hg2
        by_cases hlen : σ.length ≤ g2.length
        · have : σ <+: g2 := by
            rw [List.append_assoc] at hocc
            exact prefix_append_of_le hocc hlen
          exact hg g1 g2 hg1.symm hg2ne σ hσ this
        · rw [List.append_assoc] at hocc
          obtain ⟨hpre, hdrop⟩ := prefix_append_split hocc (by omega)
          have hwne : σ.drop g2.length ≠ [] := by
            intro he
            have := congrArg List.length he
            simp only [List.length_drop, List.length_nil] at this
            omega
          obtain ⟨w1, hw1, _⟩ := prefix_head (by
            rw [placeholder_eq, List.cons_append] at hdrop
            exact hdrop) hwne
          have hmem : '_' ∈ σ := by
            have : '_' ∈ σ.drop g2.length := by rw [hw1]; simp
            exact List.mem_of_mem_drop this
          exact specChar_ne_underscore (SpecShape_chars hσ '_' hmem) rfl
    · -- the suffix starts inside `A'`: use the induction hypothesis with the
      -- rest of the block folded into the continuation
      obtain ⟨u1, hu1⟩ := hu2
      exact ih ((g ++ placeholder i) ++ Z) u1 u2 hu1.symm hu2ne
        (by simpa [List.append_assoc] using hocc)

/-- Correctness of the protection loop: replacing the specifiers one by one,
each by its sentinel at its first occurrence, rewrites exactly the
decomposition's specifier slots. -/
theorem protectLoop_decomp :
    ∀ (ps : List (List Char × List Char)) (gN R : List Char) (i : Nat) (A : List Char),
      GapsSpecs R ps gN → ProtPrefix A →
      protectLoop (ps.map Prod.snd) i (A ++ R) = A ++ protConcat ps i gN := by
  intro ps
  induction ps with
  | nil =>
    intro gN R i A hgs hA
    cases hgs with
    | nil hg => rfl
  | cons p ps' ih =>
    intro gN R i A hgs hA
    obtain ⟨g, s⟩ := p
    cases hgs with
    | cons _ _ t _ _ hg hs ht =>
      show protectLoop (s :: ps'.map Prod.snd) i (A ++ (g ++ (s ++ t))) = _
      rw [protectLoop]
      have hnoA : ∀ A1 A2, A ++ g = A1 ++ A2 → A2 ≠ [] → ¬ s <+: (A2 ++ (s ++ t)) := by
        intro A1 A2 hsplit hne hocc
        have hsuf : A2 <:+ A ++ g := ⟨A1, hsplit.symm⟩
        rcases suffix_append_cases hsuf with hsuf | ⟨u2, hu2ne, hu2, rfl⟩
        · obtain ⟨g1, hg1⟩ := hsuf
          exact noSpecPrefix_of_noMatchIn hg hs g1 A2 hg1.symm hne hocc
        · obtain ⟨u1, hu1⟩ := hu2
          exact ProtPrefix_no_spec_occ hA hs (g ++ (s ++ t)) u1 u2 hu1.symm hu2ne
            (by simpa [List.append_assoc] using hocc)
      have hstep : replaceFirst (A ++ (g ++ (s ++ t))) s (placeholder i) =
          (A ++ (g ++ placeholder i)) ++ t := by
        have h1 : A ++ (g ++ (s ++ t)) = (A ++ g) ++ (s ++ t) := by simp
        rw [h1, replaceFirst_append hnoA, replaceFirst_head]
        simp
      rw [hstep]
      rw [ih gN t (i + 1) (A ++ (g ++ placeholder i)) ht
        (ProtPrefix.blk A g i hA (specFree_of_noMatchIn hg))]
      show A ++ (g ++ placeholder i) ++ protConcat ps' (i + 1) gN =
        A ++ (g ++ (placeholder i ++ protConcat ps' (i + 1) gN))
      simp

/-- `protect` rewrites the whole text along its decomposition. -/
theorem protect_decomp {text : List Char} {ps : List (List Char × List Char)}
    {gN : List Char} (hgs : GapsSpecs text ps gN)
    (hfs : findSpecs text = ps.map Prod.snd) :
    protect text = protConcat ps 0 gN := by
  show protectLoop (findSpecs text) 0 text = _
  rw [hfs]
  have := protectLoop_decomp ps gN text 0 [] hgs ProtPrefix.nil
  simpa using this

theorem Clean.of_infix {s x : List Char} (hs : Clean s) (hx : x <:+: s) :
    Clean x := fun h => hs (h.trans hx)

theorem PLword_infix_placeholder (j : Nat) : PLword <:+: placeholder j := by
  rw [placeholder_eq]
  exact ⟨['_', '_'], '_' :: (natDigits j ++ ['_', '_']), by simp⟩

/-- A sentinel split in two with the second part fitting against `"__…"`:
either the first part already contains the word `PLACEHOLDER`, or characters
clash.  This is the heart of why a sentinel occurrence cannot lean out of a
clean region into the canonical sentinel that follows. -/
theorem placeholder_split_underscores {j : Nat} {A2 w Z' : List Char}
    (hsplit : placeholder j = A2 ++ w) (hA2 : A2 ≠ [])
    (hw : w <+: ('_' :: '_' :: Z')) : PLword <:+: A2 := by
  have hpre : A2 <+: placeholder j := ⟨w, hsplit.symm⟩
  rw [placeholder_eq] at hpre hsplit
  obtain ⟨A2₁, rfl, hA2₁⟩ := prefix_head hpre hA2
  by_cases h1 : A2₁ = []
  · subst h1
    -- A2 = "_": w is the sentinel minus its first character
    have hw' : w = '_' :: (PLword ++ ('_' :: (natDigits j ++ ['_', '_']))) := by
      have := hsplit
      rw [List.cons_append] at this
      injection this with _ h
      rw [List.nil_append] at h
      exact h.symm
    rw [hw', List.cons_prefix_cons] at hw
    have := hw.2
    rw [show PLword ++ ('_' :: (natDigits j ++ ['_', '_'])) =
      'P' :: (PLword.tail ++ ('_' :: (natDigits j ++ ['_', '_']))) from rfl,
      List.cons_prefix_cons] at this
    cases this.1
  · obtain ⟨A2₂, rfl, hA2₂⟩ := prefix_head hA2₁ h1
    by_cases hlen : PLword.length ≤ A2₂.length
    · have hPL : PLword <+: A2₂ :=
        List.prefix_of_prefix_length_le (List.prefix_append PLword _) hA2₂ hlen
      obtain ⟨r, hr⟩ := hPL
      exact ⟨['_', '_'], r, by rw [← hr]; simp⟩
    · -- A2₂ is a strict prefix of the word: the next character of the
      -- sentinel is a letter of the word, clashing with `'_'`
      exfalso
      have hA2₂' : A2₂ <+: PLword := prefix_append_of_le hA2₂ (by omega)
      have hPLsplit : PLword = A2₂ ++ PLword.drop A2₂.length := by
        conv_lhs => rw [← List.take_append_drop A2₂.length PLword]
        rw [← List.prefix_iff_eq_take.mp hA2₂']
      have hwval : w = PLword.drop A2₂.length ++ ('_' :: (natDigits j ++ ['_', '_'])) := by
        have h2 := hsplit
        rw [List.cons_append, List.cons_append] at h2
        injection h2 with _ h2
        injection h2 with _ h2
        conv_lhs at h2 => rw [hPLsplit]
        rw [List.append_assoc] at h2
        exact (List.append_cancel_left h2).symm
      have hdne : PLword.drop A2₂.length ≠ [] := by
        intro he
        have := congrArg List.length he
        simp only [List.length_drop, List.length_nil] at this
        omega
      obtain ⟨c, dr, hdr⟩ : ∃ c dr, PLword.drop A2₂.length = c :: dr := by
        cases hd : PLword.drop A2₂.length with
        | nil => exact absurd hd hdne
        | cons c dr => exact ⟨c, dr, rfl⟩
      rw [hwval, hdr, List.cons_append, List.cons_prefix_cons] at hw
      have hcmem : c ∈ PLword := List.mem_of_mem_drop (by rw [hdr]; simp)
      exact PLword_no_underscore c hcmem hw.1

/-- A nonempty tail piece of a sentinel starts with a sentinel character,
never with `'%'`. -/
theorem placeholder_split_percent {j : Nat} {A2 w Z' : List Char}
    (hsplit : placeholder j = A2 ++ w) (hwne : w ≠ [])
    (hw : w <+: ('%' :: Z')) : False := by
  obtain ⟨c, w', rfl⟩ : ∃ c w', w = c :: w' := by
    cases w with
    | nil => exact absurd rfl hwne
    | cons c w' => exact ⟨c, w', rfl⟩
  rw [List.cons_prefix_cons] at hw
  apply percent_not_mem_placeholder j
  rw [hsplit, ← hw.1]
  exact List.mem_append_right A2 (by simp)

/-- No sentinel occurrence starts strictly inside a clean region followed by
a `ZStart` continuation. -/
theorem clean_gap_no_ph {g : List Char} (hg : Clean g) (j : Nat) :
    ∀ Z, ZStart Z → ∀ A1 A2, g = A1 ++ A2 → A2 ≠ [] →
      ¬ placeholder j <+: A2 ++ Z := by
  intro Z hZ A1 A2 hsplit hne hocc
  have hA2g : A2 <:+ g := ⟨A1, hsplit.symm⟩
  by_cases hlen : (placeholder j).length ≤ A2.length
  · have hpre : placeholder j <+: A2 := prefix_append_of_le hocc hlen
    apply hg
    exact ((PLword_infix_placeholder j).trans hpre.isInfix).trans hA2g.isInfix
  · obtain ⟨hpre, hdrop⟩ := prefix_append_split hocc (by omega)
    have hsplit2 : placeholder j = A2 ++ (placeholder j).drop A2.length := by
      conv_lhs => rw [← List.take_append_drop A2.length (placeholder j)]
      rw [← List.prefix_iff_eq_take.mp hpre]
    rcases hZ with ⟨Z', rfl⟩ | ⟨Z', rfl⟩
    · have := placeholder_split_underscores hsplit2 hne hdrop
      exact hg (this.trans hA2g.isInfix)
    · refine placeholder_split_percent hsplit2 ?_ hdrop
      intro he
      have := congrArg List.length he
      simp only [List.length_drop, List.length_nil] at this
      omega

/-- No sentinel occurrence starts strictly inside the restored prefix. -/
theorem RestPre_no_ph {Y : List Char} (hY : RestPre Y) (j : Nat) :
    ∀ Z, ZStart Z → ∀ A1 A2, Y = A1 ++ A2 → A2 ≠ [] →
      ¬ placeholder j <+: A2 ++ Z := by
  induction hY with
  | gap g hg => exact clean_gap_no_ph hg j
  | more X s g hX hs hg ih =>
    intro Z hZ A1 A2 hsplit hne hocc
    have hsuf : A2 <:+ X ++ (s ++ g) := ⟨A1, hsplit.symm⟩
    rcases suffix_append_cases hsuf with hsuf | ⟨u2, hu2ne, hu2, rfl⟩
    · rcases suffix_append_cases hsuf with hsuf | ⟨s2, hs2ne, hs2, rfl⟩
      · obtain ⟨g1, hg1⟩ := hsuf
        exact clean_gap_no_ph hg j Z hZ g1 A2 hg1.symm hne hocc
      · -- A2 = s2 ++ g with s2 a nonempty suffix of the specifier s:
        -- a sentinel starts with '_', no specifier character is '_'
        obtain ⟨c, s2', rfl⟩ : ∃ c s2', s2 = c :: s2' := by
          cases s2 with
          | nil => exact absurd rfl hs2ne
          | cons c s2' => exact ⟨c, s2', rfl⟩
        rw [placeholder_eq, List.cons_append, List.cons_append,
          List.cons_prefix_cons] at hocc
        have hcmem : c ∈ s := hs2.mem (by simp)
        exact specChar_ne_underscore (SpecShape_chars hs c hcmem) hocc.1.symm
    · obtain ⟨u1, hu1⟩ := hu2
      obtain ⟨s', hs'⟩ := SpecShape_head hs
      refine ih (s ++ (g ++ Z)) (Or.inr ⟨s' ++ (g ++ Z), by rw [hs']; simp⟩)
        u1 u2 hu1.symm hu2ne ?_
      simpa [List.append_assoc] using hocc

theorem protConcat_shift (ps : List (List Char × List Char)) (gN : List Char)
    (i : Nat) :
    protConcat ps i gN = (shiftPairs ps gN).1 ++ protUnder (shiftPairs ps gN).2 i := by
  induction ps generalizing i with
  | nil => simp [protConcat, shiftPairs, protUnder]
  | cons p ps' ih =>
    obtain ⟨g, s⟩ := p
    show g ++ (placeholder i ++ protConcat ps' (i + 1) gN) = _
    rw [ih (i + 1)]
    rfl

theorem map_fst_shift (ps : List (List Char × List Char)) (gN : List Char) :
    (shiftPairs ps gN).2.map Prod.fst = ps.map Prod.snd := by
  induction ps with
  | nil => rfl
  | cons p ps' ih =>
    obtain ⟨g, s⟩ := p
    show s :: (shiftPairs ps' gN).2.map Prod.fst = s :: ps'.map Prod.snd
    rw [ih]

theorem flatten_shift {l : List Char} {ps : List (List Char × List Char)}
    {gN : List Char} (hgs : GapsSpecs l ps gN) :
    l = (shiftPairs ps gN).1 ++ restUnder (shiftPairs ps gN).2 := by
  induction hgs with
  | nil g hg => simp [shiftPairs, restUnder]
  | cons g s t ps' gN' hg hs ht ih =>
    show g ++ (s ++ t) = _
    rw [ih]
    rfl

theorem shift_ok {l : List Char} {ps : List (List Char × List Char)}
    {gN : List Char} (hgs : GapsSpecs l ps gN) (hc : Clean l) :
    Clean (shiftPairs ps gN).1 ∧
      ∀ q ∈ (shiftPairs ps gN).2, SpecShape q.1 ∧ Clean q.2 := by
  induction hgs with
  | nil g hg => exact ⟨hc, by simp [shiftPairs]⟩
  | cons g s t ps' gN' hg hs ht ih =>
    have hct : Clean t := hc.of_infix ⟨g ++ s, [], by simp⟩
    have hcg : Clean g := hc.of_infix ⟨[], s ++ t, by simp⟩
    obtain ⟨h1, h2⟩ := ih hct
    refine ⟨hcg, ?_⟩
    intro q hq
    rcases hq with _ | ⟨_, hq⟩
    · exact ⟨hs, h1⟩
    · exact h2 q hq

/-! ## No stray sentinel occurrences in the protected tail -/

theorem PLword_head : PLword = 'P' :: PLword.tail := rfl

theorem clean_cons_underscore {g : List Char} (hg : Clean g) : Clean ('_' :: g) := by
  rintro ⟨x, y, hxy⟩
  cases x with
  | nil =>
    rw [List.nil_append, PLword_head, List.cons_append] at hxy
    injection hxy with h1 _
    cases h1
  | cons a x' =>
    rw [List.cons_append, List.cons_append] at hxy
    injection hxy with _ h2
    exact hg ⟨x', y, h2⟩

theorem placeholder_count_P (i : Nat) : (placeholder i).count 'P' = 1 := by
  rw [placeholder_eq]
  have hd : (natDigits i).count 'P' = 0 := by
    rw [List.count_eq_zero]
    intro hmem
    have := natDigits_digits 'P' hmem
    simp at this
  simp [List.count_cons, List.count_append, hd, PLword]

theorem prefix_three_P {i : Nat} {x : List Char} (hx : x <+: placeholder i)
    (hlen : 3 ≤ x.length) : 'P' ∈ x := by
  have h3 : (['_', '_', 'P'] : List Char) <+: placeholder i := by
    rw [placeholder_eq, PLword_head]
    exact ⟨PLword.tail ++ ('_' :: (natDigits i ++ ['_', '_'])), by simp⟩
  have := List.prefix_of_prefix_length_le h3 hx (by simpa using hlen)
  exact this.mem (by simp)

theorem digits_prefix_eq :
    ∀ {d1 d2 u v : List Char},
      (∀ c ∈ d1, c.isDigit = true) → (∀ c ∈ d2, c.isDigit = true) →
      d1 ++ '_' :: u <+: d2 ++ '_' :: v → d1 = d2 := by
  intro d1
  induction d1 with
  | nil =>
    intro d2 u v _ h2 h
    cases d2 with
    | nil => rfl
    | cons b d2' =>
      rw [List.nil_append, List.cons_append, List.cons_prefix_cons] at h
      exact absurd (h2 b (by simp)) (by rw [← h.1]; decide)
  | cons a d1' ih =>
    intro d2 u v h1 h2 h
    cases d2 with
    | nil =>
      rw [List.cons_append, List.nil_append, List.cons_prefix_cons] at h
      exact absurd (h1 a (by simp)) (by rw [h.1]; decide)
    | cons b d2' =>
      rw [List.cons_append, List.cons_append, List.cons_prefix_cons] at h
      rw [h.1, ih (fun c hc => h1 c (by simp [hc])) (fun c hc => h2 c (by simp [hc])) h.2]

/-- A sentinel that is a prefix of another sentinel's region carries the same
index. -/
theorem ph_prefix_ph {j k : Nat} {R : List Char}
    (h : placeholder j <+: placeholder k ++ R) : j = k := by
  obtain ⟨C, hC⟩ : ∃ C, ∀ m, placeholder m = C ++ (natDigits m ++ ['_', '_']) := by
    refine ⟨'_' :: '_' :: (PLword ++ ['_']), fun m => ?_⟩
    rw [placeholder_eq]
    simp
  rw [hC j, hC k, List.append_assoc] at h
  rw [List.prefix_append_right_inj] at h
  have hdig : natDigits j ++ ['_', '_'] <+:
      natDigits k ++ '_' :: ('_' :: R) := by
    simpa using h
  have := digits_prefix_eq (fun c hc => natDigits_digits c hc)
    (fun c hc => natDigits_digits c hc)
    (by simpa using hdig)
  exact natDigits_inj this

/-- An all-underscore scrap glued onto a clean gap is still clean, and no
sentinel occurrence can start there when the continuation is a protected
tail. -/
theorem underscores_clean_no_ph {p2 g' : List Char}
    {qs' : List (List Char × List Char)}
    (hp : ∀ c ∈ p2, c = '_') (hp2ne : p2 ≠ []) (hg' : Clean g') (j i : Nat)
    (hocc : placeholder j <+: p2 ++ (g' ++ protUnder qs' i)) : False := by
  have hclean2 : Clean (p2 ++ g') := by
    clear hocc hp2ne
    induction p2 with
    | nil => exact hg'
    | cons c p2' ih =>
      have hc : c = '_' := hp c (by simp)
      subst hc
      exact clean_cons_underscore (ih fun c hc => hp c (by simp [hc]))
  cases qs' with
  | nil =>
    apply hclean2
    have hpre : placeholder j <+: p2 ++ g' := by
      simpa [protUnder] using hocc
    exact (PLword_infix_placeholder j).trans hpre.isInfix
  | cons q' qs'' =>
    obtain ⟨s'', g''⟩ := q'
    have hZ : ZStart (protUnder ((s'', g'') :: qs'') i) := by
      refine Or.inl ⟨(PLword ++ ('_' :: (natDigits i ++ ['_', '_']))) ++
        (g'' ++ protUnder qs'' (i + 1)), ?_⟩
      simp [protUnder, placeholder_eq]
    refine clean_gap_no_ph hclean2 j _ hZ [] (p2 ++ g') rfl
      (by simp [hp2ne]) ?_
    simpa [List.append_assoc] using hocc

/-- No sentinel of an index already restored occurs anywhere in a clean gap
followed by the protected tail of strictly larger indices. -/
theorem protUnder_no_ph :
    ∀ (qs : List (List Char × List Char)),
      (∀ q ∈ qs, Clean q.2) →
      ∀ (i₀ j : Nat), j < i₀ → ∀ (g : List Char), Clean g →
      ∀ B1 B2, g ++ protUnder qs i₀ = B1 ++ B2 → B2 ≠ [] →
      ¬ placeholder j <+: B2 := by
  intro qs
  induction qs with
  | nil =>
    intro _ i₀ j hj g hg B1 B2 hsplit hne hocc
    simp only [protUnder, List.append_nil] at hsplit
    apply hg
    have hsuf : B2 <:+ g := ⟨B1, hsplit.symm⟩
    exact ((PLword_infix_placeholder j).trans hocc.isInfix).trans hsuf.isInfix
  | cons q qs' ih =>
    intro hcl i₀ j hj g hg B1 B2 hsplit hne hocc
    obtain ⟨s, g'⟩ := q
    simp only [protUnder] at hsplit
    have hsuf : B2 <:+ g ++ (placeholder i₀ ++ (g' ++ protUnder qs' (i₀ + 1))) :=
      ⟨B1, hsplit.symm⟩
    have hg'c : Clean g' := (hcl (s, g') (List.mem_cons_self _ _) : Clean g')
    have hcl' : ∀ q ∈ qs', Clean q.2 := fun q hq => hcl q (List.mem_cons_of_mem _ hq)
    rcases suffix_append_cases hsuf with hsuf | ⟨g2, hg2ne, hg2, rfl⟩
    · rcases suffix_append_cases hsuf with hsuf | ⟨p2, hp2ne, hp2, rfl⟩
      · obtain ⟨B1', hB1'⟩ := hsuf
        exact ih hcl' (i₀ + 1) j (by omega) g' hg'c B1' B2 hB1'.symm hne hocc
      · by_cases hfull : p2 = placeholder i₀
        · subst hfull
          exact absurd (ph_prefix_ph hocc) (by omega)
        · obtain ⟨u, hu⟩ := hp2
          have hune : u ≠ [] := by
            rintro rfl
            exact hfull (by simpa using hu)
          obtain ⟨c1, p2', rfl⟩ : ∃ c1 p2', p2 = c1 :: p2' := by
            cases p2 with
            | nil => exact absurd rfl hp2ne
            | cons c1 p2' => exact ⟨c1, p2', rfl⟩
          cases p2' with
          | nil =>
            have hocc' := hocc
            rw [placeholder_eq, List.cons_append, List.cons_prefix_cons] at hocc'
            obtain ⟨hc1, _⟩ := hocc'
            subst hc1
            refine underscores_clean_no_ph ?_ ?_ hg'c j (i₀ + 1) hocc
            · simp
            · simp
          | cons c2 p2'' =>
            have hph3 : placeholder j = '_' :: '_' :: 'P' ::
                (['L', 'A', 'C', 'E', 'H', 'O', 'L', 'D', 'E', 'R'] ++
                  ('_' :: (natDigits j ++ ['_', '_']))) := rfl
            cases p2'' with
            | nil =>
              have hocc' := hocc
              rw [hph3] at hocc'
              simp only [List.cons_append, List.nil_append] at hocc'
              rw [List.cons_prefix_cons] at hocc'
              obtain ⟨hc1, hocc'⟩ := hocc'
              rw [List.cons_prefix_cons] at hocc'
              obtain ⟨hc2, _⟩ := hocc'
              subst hc1; subst hc2
              refine underscores_clean_no_ph ?_ ?_ hg'c j (i₀ + 1) hocc
              · simp
              · simp
            | cons c3 p2''' =>
              rw [hph3] at hocc
              simp only [List.cons_append] at hocc
              rw [List.cons_prefix_cons] at hocc
              obtain ⟨hc1, hocc⟩ := hocc
              rw [List.cons_prefix_cons] at hocc
              obtain ⟨hc2, hocc⟩ := hocc
              rw [List.cons_prefix_cons] at hocc
              obtain ⟨hc3, _⟩ := hocc
              subst hc1; subst hc2; subst hc3
              have hpre2 : u ++ ['_', '_'] <+: placeholder i₀ :=
                ⟨'P' :: p2''', by rw [← hu]; simp⟩
              have hPmem : 'P' ∈ u ++ ['_', '_'] :=
                prefix_three_P hpre2 (by
                  have : 1 ≤ u.length := List.length_pos.mpr hune
                  simp
                  omega)
              have hPu : 'P' ∈ u := by
                rcases List.mem_append.mp hPmem with h | h
                · exact h
                · simp at h
              have hcount : 2 ≤ (placeholder i₀).count 'P' := by
                rw [← hu, List.count_append]
                have h1 : 0 < u.count 'P' := List.count_pos_iff.mpr hPu
                have h2 : 1 ≤ ('_' :: '_' :: 'P' :: p2''').count 'P' := by
                  simp [List.count_cons]
                omega
              rw [placeholder_count_P i₀] at hcount
              omega
    · obtain ⟨g1, hg1⟩ := hg2
      have hZ : ZStart (placeholder i₀ ++ (g' ++ protUnder qs' (i₀ + 1))) := by
        refine Or.inl ⟨(PLword ++ ('_' :: (natDigits i₀ ++ ['_', '_']))) ++
          (g' ++ protUnder qs' (i₀ + 1)), ?_⟩
        simp [placeholder_eq]
      exact clean_gap_no_ph hg j _ hZ g1 g2 hg1.symm hg2ne hocc

/-- Correctness of the restoration loop: starting from a restored prefix and
the protected tail, the loop restores every sentinel in order. -/
theorem restoreLoop_decomp :
    ∀ (qs : List (List Char × List Char)) (i : Nat) (Y : List Char),
      (∀ q ∈ qs, SpecShape q.1 ∧ Clean q.2) → RestPre Y →
      restoreLoop (qs.map Prod.fst) i (Y ++ protUnder qs i) = Y ++ restUnder qs := by
  intro qs
  induction qs with
  | nil =>
    intro i Y _ _
    simp [restoreLoop, protUnder, restUnder]
  | cons q qs' ih =>
    intro i Y hq hY
    obtain ⟨s, g'⟩ := q
    have hs : SpecShape s := (hq (s, g') (List.mem_cons_self _ _)).1
    have hg'c : Clean g' := (hq (s, g') (List.mem_cons_self _ _)).2
    have hq' : ∀ q ∈ qs', SpecShape q.1 ∧ Clean q.2 :=
      fun q hqm => hq q (List.mem_cons_of_mem _ hqm)
    show restoreLoop (s :: qs'.map Prod.fst) i
        (Y ++ (placeholder i ++ (g' ++ protUnder qs' (i + 1)))) = _
    rw [restoreLoop]
    have hZ : ZStart (placeholder i ++ (g' ++ protUnder qs' (i + 1))) := by
      refine Or.inl ⟨(PLword ++ ('_' :: (natDigits i ++ ['_', '_']))) ++
        (g' ++ protUnder qs' (i + 1)), ?_⟩
      simp [placeholder_eq]
    have hstep :
        replaceAll (Y ++ (placeholder i ++ (g' ++ protUnder qs' (i + 1))))
          (placeholder i) s = Y ++ (s ++ (g' ++ protUnder qs' (i + 1))) := by
      rw [replaceAll_append fun A1 A2 hA hne => RestPre_no_ph hY i _ hZ A1 A2 hA hne]
      rw [replaceAll_head _ _ (placeholder_ne_nil i)]
      rw [replaceAll_no_occ (placeholder_ne_nil i)
        (protUnder_no_ph qs' (fun q hqm => (hq' q hqm).2) (i + 1) i (by omega) g' hg'c)]
    rw [hstep]
    have hassoc : Y ++ (s ++ (g' ++ protUnder qs' (i + 1))) =
        (Y ++ (s ++ g')) ++ protUnder qs' (i + 1) := by simp
    rw [hassoc, ih (i + 1) (Y ++ (s ++ g')) hq' (RestPre.more Y s g' hY hs hg'c)]
    show (Y ++ (s ++ g')) ++ restUnder qs' = Y ++ (s ++ (g' ++ restUnder qs'))
    simp

/-- The protect/restore round trip is the identity on texts free of the
sentinel word. -/
theorem protect_restore_clean {text : List Char} (hc : Clean text) :
    restore (findSpecs text) (protect text) = text := by
  obtain ⟨ps, gN, hgs, hfs⟩ := findSpecs_decomp text.length text (le_refl _)
  have hok := shift_ok hgs hc
  have hflat := flatten_shift hgs
  show restoreLoop (findSpecs text) 0 (protect text) = text
  rw [protect_decomp hgs hfs, protConcat_shift, hfs, ← map_fst_shift ps gN]
  rw [restoreLoop_decomp _ 0 _ hok.2 (RestPre.gap _ hok.1)]
  exact hflat.symm

/-- C2 counterexample: the round trip is NOT the identity on every source
text.  A text that already contains a sentinel-shaped token collides with
the sentinels introduced by the protection phase: restoring the sentinel of
the extracted `%d` also rewrites the pre-existing lookalike token. -/
theorem protect_restore_counterexample :
    restore (findSpecs "__PLACEHOLDER_0__ %d".data)
        (protect "__PLACEHOLDER_0__ %d".data) ≠ "__PLACEHOLDER_0__ %d".data := by
  decide

/-- C2 (amended): for every source text that does not contain the substring
`PLACEHOLDER`, extracting its format specifiers, replacing each match in
order of appearance by its unique sentinel token, and then replacing each
sentinel back by its recorded specifier — with no translation step in
between — yields exactly the original text. -/
theorem protect_restore_roundtrip (text : List Char)
    (h : ¬ PLword <:+: text) :
    restore (findSpecs text) (protect text) = text :=
  protect_restore_clean h

theorem protect_restore_roundtrip_witness :
    (¬ PLword <:+: "Save %1$@ of %lld items".data) ∧
      restore (findSpecs "Save %1$@ of %lld items".data)
        (protect "Save %1$@ of %lld items".data) = "Save %1$@ of %lld items".data :=
  ⟨by decide, protect_restore_roundtrip "Save %1$@ of %lld items".data (by decide)⟩

end Localization
